import Mathlib

/-!
Verification of the XML-to-table conversion core (`core.py`, `app.py`).

The development shallowly embeds the Python source:

* XML elements (`xml.etree` / `lxml` elements) become the inductive `XmlE`;
  a tag or attribute name is an arbitrary string, possibly of the namespace
  form produced by the parsers, where the namespace part ends at the first
  closing-brace character.
* Python dicts are association lists with Python's insertion semantics:
  assigning to an existing key overwrites the value in place, a new key is
  appended (`dictInsert`), and `d.update(other)` folds `dictInsert` over
  `other` (`dictUpdate`).
* `element_to_dict`, `flatten_dict_all`, `detect_repeating_rows`,
  `xml_rows_to_dataframe` and `iter_xml_rows` are translated function by
  function from `core.py`; the writer bodies of `app.py`
  (`stream_csv_to_path`, `stream_parquet_to_path`, `stream_xlsx_to_path`)
  are translated as functions from the record sequence that
  `iter_xml_rows` yields (re-opening the iterator yields the same list),
  returning the rows they write.
* The job orchestrator `_run_conversion` is modelled as the list of job
  states it publishes via `_update_job`, plus the list of per-file
  artifacts it completes; the per-file conversion outcome is abstracted
  by `FOut` (missing input / conversion error / success).

String primitives (`split`, `strip`) are re-implemented structurally on
the character list of a `String` so that every definition evaluates by
kernel reduction; their semantics matches the Python calls used by the
source (`tag.split(brace, 1)[1]`, `str.strip()`).
-/

/-- The closing-brace character that terminates a namespace prefix in the
tag names produced by the XML parsers. -/
def braceChar : Char := '\x7d'

/-- The one-character string holding `braceChar`. -/
def braceStr : String := "\x7d"

/-- Characters strictly after the first `braceChar`, if any occurs. -/
def dropThroughBrace : List Char → Option (List Char)
  | [] => none
  | c :: rest => if c = braceChar then some rest else dropThroughBrace rest

/-- `core.localname`: `tag.split(brace, 1)[1] if brace in tag else tag` —
everything after the first closing brace, or the whole tag. -/
def localname (tag : String) : String :=
  match dropThroughBrace tag.data with
  | some rest => ⟨rest⟩
  | none => tag

/-- Python `str.strip()`: remove leading and trailing whitespace. -/
def pyStrip (s : String) : String :=
  ⟨((s.data.dropWhile Char.isWhitespace).reverse.dropWhile Char.isWhitespace).reverse⟩

/-- An XML element: tag, attributes (name/value pairs in document order),
text content, and child elements in document order. -/
inductive XmlE where
  | mk (tag : String) (attrib : List (String × String)) (text : String)
       (children : List XmlE)

/-- Tag of an element. -/
def XmlE.tag : XmlE → String
  | .mk t _ _ _ => t

/-- Attributes of an element. -/
def XmlE.attrib : XmlE → List (String × String)
  | .mk _ a _ _ => a

/-- Text of an element. -/
def XmlE.text : XmlE → String
  | .mk _ _ x _ => x

/-- Children of an element. -/
def XmlE.children : XmlE → List XmlE
  | .mk _ _ _ cs => cs

/-- `NormalizedValue`: the tagged union produced by the element normalizer —
a scalar (trimmed text or null), a record (ordered key/value mapping), or a
repeated group (ordered sequence). -/
inductive NValue where
  | scalar (s : Option String)
  | record (entries : List (String × NValue))
  | group (items : List NValue)

/-- `FlatRecord`: ordered mapping from a composite path key to a scalar. -/
abbrev Flat := List (String × Option String)

/-- Python dict assignment `d[k] = v`: overwrite the first occurrence of `k`
in place, otherwise append `(k, v)` at the end. -/
def dictInsert (k : String) (v : α) : List (String × α) → List (String × α)
  | [] => [(k, v)]
  | (k', v') :: rest => if k' = k then (k, v) :: rest else (k', v') :: dictInsert k v rest

/-- Python `d.update(other)`: assign every entry of `other` into `d` in
order. -/
def dictUpdate (d : List (String × α)) (other : List (String × α)) : List (String × α) :=
  other.foldl (fun a kv => dictInsert kv.1 kv.2 a) d

/-- Python `d.get(k)`: the value at the first occurrence of `k`, if any. -/
def dictGet (d : List (String × α)) (k : String) : Option α :=
  (d.find? (fun p => p.1 == k)).map (fun p => p.2)

/-- One step of `collections.defaultdict(list)` grouping: append `v` to the
bucket of `k`, creating the bucket at the end on first occurrence. -/
def addToGroups (k : String) (v : α) : List (String × List α) → List (String × List α)
  | [] => [(k, [v])]
  | (k', vs) :: rest =>
    if k' = k then (k', vs ++ [v]) :: rest else (k', vs) :: addToGroups k v rest

/-- Group a list of key/value pairs by key, keys in first-occurrence order,
values in list order (the `defaultdict(list)` loop of the source). -/
def groupPairs (kvs : List (String × α)) : List (String × List α) :=
  kvs.foldl (fun g kv => addToGroups kv.1 kv.2 g) []

mutual
/-- `core.element_to_dict`: element to normalized value.  Attributes become
entries keyed with an `@` prefix; children are grouped by local name (a
single occurrence keeps its value, several become a group); then
`data.update(buckets)`.  A childless element returns just its stripped text
(or null when empty) — the attribute dict built first is discarded in that
branch, exactly as in the source. -/
def element_to_dict : XmlE → NValue
  | .mk _ _ text [] =>
    let txt := pyStrip text
    if txt = "" then .scalar none else .scalar (some txt)
  | .mk _ attrib _ (c :: cs) =>
    let data : List (String × NValue) :=
      attrib.foldl (fun d kv => dictInsert ("@" ++ localname kv.1) (NValue.scalar (some kv.2)) d) []
    let buckets := groupPairs (childPairs (c :: cs))
    let entries := buckets.map (fun g =>
      (g.1, match g.2 with
            | [v] => v
            | vs => NValue.group vs))
    .record (dictUpdate data entries)
/-- The `(localname(c.tag), element_to_dict(c))` pairs for a child list, in
document order. -/
def childPairs : List XmlE → List (String × NValue)
  | [] => []
  | c :: rest => (localname c.tag, element_to_dict c) :: childPairs rest
end

mutual
/-- `core.flatten_dict_all`: flatten a normalized value into a flat record
with dotted keys and bracketed indices.  A bare scalar is assigned at
`parent_key` only when that key is nonempty. -/
def flatten_dict_all : NValue → String → Flat
  | .scalar s, pk => if pk ≠ "" then [(pk, s)] else []
  | .record es, pk => flattenRec pk es []
  | .group items, pk => flattenItems pk 0 items []
/-- The `for k, v in obj.items()` loop of `flatten_dict_all`, carrying the
flat dict built so far. -/
def flattenRec : String → List (String × NValue) → Flat → Flat
  | _, [], acc => acc
  | pk, (k, v) :: rest, acc =>
    flattenRec pk rest (flattenEntry (if pk ≠ "" then pk ++ "." ++ k else k) v acc)
/-- One entry of the dict branch: recurse into a record
(`flat.update(flatten_dict_all(v, nk))`), enumerate a group, or assign a
scalar at `nk`. -/
def flattenEntry : String → NValue → Flat → Flat
  | nk, .record es, acc => dictUpdate acc (flattenRec nk es [])
  | nk, .group items, acc => flattenItems nk 0 items acc
  | nk, .scalar s, acc => dictInsert nk s acc
/-- The `for i, item in enumerate(v)` loop: recurse on each member with the
indexed key `pk[i]`. -/
def flattenItems : String → Nat → List NValue → Flat → Flat
  | _, _, [], acc => acc
  | pk, i, item :: rest, acc =>
    flattenItems pk (i+1) rest (dictUpdate acc (flatten_dict_all item (pk ++ "[" ++ Nat.repr i ++ "]")))
end

mutual
/-- Specification-side flattening (claim C2's wording): the list of
(composed key, scalar) assignments made by the flattener, in traversal
order, without the dict-overwrite bookkeeping.  A `Record` entry composes
`parent.key` (no leading separator at the top level), a `RepeatedGroup`
member composes `parent[index]` with 0-based indices, a `Scalar` leaf is
assigned directly at its composed key. -/
def asgV : NValue → String → Flat
  | .scalar s, pk => if pk ≠ "" then [(pk, s)] else []
  | .record es, pk => asgRec pk es
  | .group items, pk => asgItems pk 0 items
/-- Assignments of a record's entries. -/
def asgRec : String → List (String × NValue) → Flat
  | _, [] => []
  | pk, (k, v) :: rest => asgEntry (if pk ≠ "" then pk ++ "." ++ k else k) v ++ asgRec pk rest
/-- Assignments of one record entry at its composed key. -/
def asgEntry : String → NValue → Flat
  | nk, .scalar s => [(nk, s)]
  | nk, .record es => asgRec nk es
  | nk, .group items => asgItems nk 0 items
/-- Assignments of a group's members at indexed keys. -/
def asgItems : String → Nat → List NValue → Flat
  | _, _, [] => []
  | pk, i, item :: rest => asgV item (pk ++ "[" ++ Nat.repr i ++ "]") ++ asgItems pk (i+1) rest
end

/-- Best-candidate record of `core.detect_repeating_rows`: repetition count,
parent depth (initially `-1`), group name and group members. -/
structure BestG where
  count : Nat
  depth : Int
  name : Option String
  elems : Option (List XmlE)

/-- The initial best record `{"count": 0, "depth": -1, "name": None,
"elems": None}`. -/
def bestInit : BestG := ⟨0, -1, none, none⟩

/-- One candidate sibling group considered by the detector: the depth of
its parent, its local name, and its members in document order. -/
structure Cand where
  depth : Nat
  name : String
  elems : List XmlE

/-- The `if c >= 2 and (c > best.count or (c == best.count and depth >
best.depth))` update of the detector, for one candidate group. -/
def candStep (b : BestG) (c : Cand) : BestG :=
  if 2 ≤ c.elems.length ∧
      (b.count < c.elems.length ∨ (c.elems.length = b.count ∧ b.depth < (c.depth : Int))) then
    ⟨c.elems.length, (c.depth : Int), some c.name, some c.elems⟩
  else b

/-- Direct children of `p` grouped by local name, keys in first-occurrence
order (the `defaultdict(list)` loop of the detector). -/
def parentGroups (p : XmlE) : List (String × List XmlE) :=
  groupPairs (p.children.map (fun c => (localname c.tag, c)))

mutual
/-- All `(node, depth)` pairs of the subtree rooted at an element, in the
exact order the detector's explicit stack pops them (the stack pushes
children in document order and pops from the end, so after a parent the
traversal continues with its last child). -/
def visitOrder : XmlE → Nat → List (XmlE × Nat)
  | .mk t a x cs, d => (XmlE.mk t a x cs, d) :: visitOrderList cs d
/-- Stack-pop order of a child list at depth `d`: later children first,
each followed by its own subtree. -/
def visitOrderList : List XmlE → Nat → List (XmlE × Nat)
  | [], _ => []
  | c :: rest, d => visitOrderList rest d ++ visitOrder c (d + 1)
end

/-- The detector's loop body for one popped `(parent, depth)` pair: group
the direct children by local name and fold the candidate update over the
groups. -/
def drrStep (b : BestG) (pd : XmlE × Nat) : BestG :=
  if pd.1.children.isEmpty then b
  else (parentGroups pd.1).foldl (fun bb g => candStep bb ⟨pd.2, g.1, g.2⟩) b

/-- `core.detect_repeating_rows`: fold the loop body over the stack-pop
traversal; return the best group's members, else the root's children, else
the root alone. -/
def detect_repeating_rows (root : XmlE) : List XmlE :=
  let best := (visitOrder root 0).foldl drrStep bestInit
  match best.elems with
  | some els => els
  | none => if root.children.isEmpty then [root] else root.children

/-- The members of the sibling group of local name `n` among the direct
children of `p`, in document order (specification-side reading of a
candidate group). -/
def siblingGroup (p : XmlE) (n : String) : List XmlE :=
  p.children.filter (fun c => localname c.tag == n)

/-- A pandas `DataFrame` as materialized from a list of flat records:
column labels, and one cell row per record, where a missing key is `none`
(`NaN`) and a present key carries its (possibly null) value. -/
structure DataFrame where
  columns : List String
  rows : List (List (Option (Option String)))

/-- Fold one record's keys into the running column list, appending keys not
seen before (pandas' first-appearance column order for a list of dicts). -/
def addCols (cols : List String) (r : Flat) : List String :=
  r.foldl (fun cs kv => if cs.contains kv.1 then cs else cs ++ [kv.1]) cols

/-- Column labels of `pd.DataFrame(rows)`: union of keys in order of first
appearance across the records. -/
def dfColumns (rows : List Flat) : List String :=
  rows.foldl addCols []

/-- Cell of a record at a column: `none` when the record lacks the key. -/
def flatGet (r : Flat) (k : String) : Option (Option String) :=
  dictGet r k

/-- `core.xml_rows_to_dataframe`: detect the row elements, normalize and
flatten each, and materialize `pd.DataFrame(rows)`. -/
def xml_rows_to_dataframe (root : XmlE) : DataFrame :=
  let flats := (detect_repeating_rows root).map (fun el => flatten_dict_all (element_to_dict el) "")
  let cols := dfColumns flats
  ⟨cols, flats.map (fun r => cols.map (flatGet r))⟩

/-- The flat records the whole-document path assembles (the `rows` list of
`xml_rows_to_dataframe`). -/
def docFlats (root : XmlE) : List Flat :=
  (detect_repeating_rows root).map (fun el => flatten_dict_all (element_to_dict el) "")

/-- Best `(name, count)` record of the streaming discovery pass. -/
structure BestN where
  name : Option String
  count : Nat

mutual
/-- Streaming discovery (pass 1 of `core.iter_xml_rows`) for one element's
subtree: the element's own end-event update is done by its parent's
`p1Children`; here a fresh sibling counter is opened for its children. -/
def p1Sub (b : BestN) : XmlE → BestN
  | .mk _ _ _ cs => p1Children b [] cs
/-- Process a child list against the open parent's sibling counter: first
the child's subtree (its descendants close first), then the child's own
end event increments the counter for its local name and updates the best
when the count reaches 2 and strictly exceeds the best count. -/
def p1Children (b : BestN) (counter : List (String × Nat)) : List XmlE → BestN
  | [] => b
  | c :: rest =>
    let b1 := p1Sub b c
    let k := localname c.tag
    let n := (dictGet counter k).getD 0 + 1
    let b2 := if 2 ≤ n ∧ b1.count < n then BestN.mk (some k) n else b1
    p1Children b2 (dictInsert k n counter) rest
end

/-- Result of the streaming discovery pass over a whole document: root's
end event has no parent counter, so only `p1Sub` applies. -/
def bestNameOf (root : XmlE) : BestN := p1Sub ⟨none, 0⟩ root

/-- The target local name of `core.iter_xml_rows`: pass-1 best name, else
the local name of the root's first child, else none (childless root). -/
def targetLocal (root : XmlE) : Option String :=
  match (bestNameOf root).name with
  | some n => some n
  | none => root.children.head?.map (fun c => localname c.tag)

/-- Pass-2 match test: `tag.endswith(brace + target)` when the tag carries
a namespace, plain equality otherwise. -/
def tagMatches (tag t : String) : Bool :=
  if tag.data.contains braceChar then (braceStr ++ t).data.isSuffixOf tag.data
  else tag == t

/-- The element left behind by lxml's `elem.clear()`: same tag, no
attributes, no text, no children. -/
def clearedShell (tag : String) : XmlE := .mk tag [] "" []

mutual
/-- Pass 2 of `core.iter_xml_rows` on one element: children are processed
first (their end events come first, and a matched descendant is cleared in
place); if the element's own tag matches the target it is normalized,
flattened and yielded, then cleared. -/
def pass2 (t : String) : XmlE → (List Flat × XmlE)
  | .mk tag a x cs =>
    let p := pass2List t cs
    let el2 := XmlE.mk tag a x p.2
    if tagMatches tag t then
      (p.1 ++ [flatten_dict_all (element_to_dict el2) ""], clearedShell tag)
    else (p.1, el2)
/-- Pass 2 over a child list, in document order. -/
def pass2List (t : String) : List XmlE → (List Flat × List XmlE)
  | [] => ([], [])
  | c :: rest =>
    let pc := pass2 t c
    let pr := pass2List t rest
    (pc.1 ++ pr.1, pc.2 :: pr.2)
end

/-- Rows of the whole-document fallback of `iter_xml_rows`: each DataFrame
row becomes a dict over all DataFrame columns, `NaN` mapped to null. -/
def dfFallbackRows (df : DataFrame) : List Flat :=
  df.rows.map (fun row => (df.columns.zip row).map (fun p => (p.1, p.2.bind id)))

/-- `core.iter_xml_rows`: two-pass streaming extraction — discover the
target local name, then yield every matching element's flattened record in
end-event order; with no structure at all (childless root), fall back to
the whole-document path. -/
def iter_xml_rows (root : XmlE) : List Flat :=
  match targetLocal root with
  | some t => (pass2 t root).1
  | none => dfFallbackRows (xml_rows_to_dataframe root)

/-- `r.get(k)` as the writers use it: `None` both for a missing key and for
a null value. -/
def fget (r : Flat) (k : String) : Option String :=
  (flatGet r k).bind id

/-- The cell test of the writers' row filter: `v is not None and v != ""`. -/
def cellHasData : Option String → Bool
  | some s => s != ""
  | none => false

/-- The row filter of the writers: some selected column holds a non-empty
value. -/
def rowHasData (header : List String) (r : Flat) : Bool :=
  header.any (fun k => cellHasData (fget r k))

/-- Projection of a record onto a header, in header order. -/
def projRow (header : List String) (r : Flat) : List (Option String) :=
  header.map (fun k => fget r k)

/-- Python truthiness of the `header_cols if header_cols else None`
pattern: an empty list behaves like `None`. -/
def normHC : Option (List String) → Option (List String)
  | some [] => none
  | hc => hc

/-- `app.stream_csv_to_path` on the record sequence of `iter_xml_rows`:
the CSV lines written, header line first (header cells as values).  With
explicit columns each record passing the row filter is written once; with
inferred columns the first record is peeked to obtain the header, written
if it passes the filter, and then a fresh iteration over the file writes
every passing record again. -/
def stream_csv_to_path (records : List Flat) (header_cols : Option (List String)) :
    List (List (Option String)) :=
  match header_cols with
  | some header =>
    if header.isEmpty then []
    else (header.map some) :: (records.filter (rowHasData header)).map (projRow header)
  | none =>
    match records.head? with
    | none => []
    | some first_row =>
      if first_row.isEmpty then []
      else
        let header := first_row.map Prod.fst
        (header.map some) ::
          ((if rowHasData header first_row then [projRow header first_row] else []) ++
            (records.filter (rowHasData header)).map (projRow header))

/-- `app.stream_parquet_to_path` on the record sequence of
`iter_xml_rows`: the rows written across all batches, in order.  The
header is the explicit column list if non-empty, else the first record's
key list; every record is buffered and written — there is no row filter on
this path. -/
def stream_parquet_to_path (records : List Flat) (header_cols : Option (List String)) :
    List (List (Option String)) :=
  match normHC header_cols with
  | some header => records.map (projRow header)
  | none =>
    match records.head? with
    | none => []
    | some first_row => records.map (projRow (first_row.map Prod.fst))

/-- `app.stream_xlsx_to_path` on the record sequence of `iter_xml_rows`:
the sheets of the produced workbook, each sheet a list of cell rows.  A
single sheet `Rows` is created; the header is the explicit columns if
non-empty, else the first record's keys; the peeked first record is
appended if it passes the row filter, and then a fresh iteration appends
every passing record. -/
def stream_xlsx_to_path (records : List Flat) (header_cols : Option (List String)) :
    List (List (List (Option String))) :=
  let first_row := records.head?
  let header :=
    match normHC header_cols with
    | some h => h
    | none => match first_row with
              | some r => r.map Prod.fst
              | none => []
  if header.isEmpty then [[]]
  else
    [[header.map some] ++
      (match first_row with
       | some r => if rowHasData header r then [projRow header r] else []
       | none => []) ++
      (records.filter (rowHasData header)).map (projRow header)]

/-- Outcome of converting one file inside `_run_conversion`: the input is
missing (`FileNotFoundError` raised before the pre-update), the conversion
itself raises (parse or I/O failure), or it succeeds. -/
inductive FOut where
  | missing
  | convErr (msg : String)
  | ok

/-- A published job-registry state: the dict held in `jobs[job_id]`, with
the fields `_run_conversion` writes. -/
structure JS where
  status : String
  progress : Nat
  current : Nat
  total : Nat
  file : String
  error : Option String
  result_path : Option String

/-- The state after the initial
`_update_job(status="PROGRESS", progress=0, current=0, total=total)`. -/
def initJS (total : Nat) : JS :=
  ⟨"PROGRESS", 0, 0, total, "", none, none⟩

/-- The multi-file loop of `_run_conversion` from 1-based index `idx`:
returns the list of states published by the remaining updates and the
archive entries completed.  `int(k / total * 100)` is modelled as the
rational floor `k * 100 / total`. -/
def multiGo (total : Nat) : Nat → JS → List (String × FOut) → (List JS × List String)
  | _, cur, [] =>
    ([{ cur with status := "SUCCESS", result_path := some "outputs/job.zip" }], [])
  | idx, cur, (fname, out) :: rest =>
    match out with
    | .missing =>
      ([{ cur with status := "FAILURE",
                   error := some ("Missing uploaded file: temp_uploads/" ++ fname ++ ".xml") }], [])
    | .convErr msg =>
      let pre := { cur with current := idx, file := fname, progress := (idx - 1) * 100 / total }
      ([pre, { pre with status := "FAILURE", error := some msg }], [])
    | .ok =>
      let pre := { cur with current := idx, file := fname, progress := (idx - 1) * 100 / total }
      let post := { pre with progress := idx * 100 / total }
      let r := multiGo total (idx + 1) post rest
      (pre :: post :: r.1, fname :: r.2)

/-- The single-file branch of `_run_conversion`. -/
def singleGo (cur : JS) (fname : String) (out : FOut) : List JS × List String :=
  match out with
  | .missing =>
    ([{ cur with status := "FAILURE",
                 error := some ("Missing uploaded file: temp_uploads/" ++ fname ++ ".xml") }], [])
  | .convErr msg =>
    let pre := { cur with current := 1, total := 1, file := fname, progress := 0 }
    ([pre, { pre with status := "FAILURE", error := some msg }], [])
  | .ok =>
    let pre := { cur with current := 1, total := 1, file := fname, progress := 0 }
    ([pre, { pre with status := "SUCCESS", result_path := some "outputs/job.out", progress := 100 }],
     [fname])

/-- `app._run_conversion` for a job over the given files (name and per-file
outcome): the chronological list of published job states, and the names of
the files whose artifacts were completed.  An empty file list raises
`IndexError` in the single-file branch, caught by the same handler. -/
def _run_conversion (files : List (String × FOut)) : List JS × List String :=
  let total := files.length
  let s0 := initJS total
  match files with
  | [] => ([s0, { s0 with status := "FAILURE", error := some "list index out of range" }], [])
  | [f] =>
    let r := singleGo s0 f.1 f.2
    (s0 :: r.1, r.2)
  | f1 :: f2 :: rest =>
    let r := multiGo total 1 s0 (f1 :: f2 :: rest)
    (s0 :: r.1, r.2)

/-- `app.download_result` reduced to the artifact it exposes: a result path
only when the job's terminal status is `SUCCESS` (any other status answers
HTTP 400/404 and exposes nothing). -/
def download_result (j : JS) : Option String :=
  if j.status = "SUCCESS" then j.result_path else none

/-- Keys of a list in first-occurrence order (deduplication keeping the
first copy), as produced by dict/`defaultdict` iteration order. -/
def dedupFirst : List String → List String
  | [] => []
  | s :: rest => s :: (dedupFirst rest).filter (fun t => t != s)

/-- Closed form of `groupPairs`: for each key in first-occurrence order,
the values of all pairs carrying that key, in list order. -/
def toGroups (kvs : List (String × α)) : List (String × List α) :=
  (dedupFirst (kvs.map Prod.fst)).map
    (fun k => (k, (kvs.filter (fun p => p.1 == k)).map Prod.snd))

/-- Specification-side attribute entries of the normalizer: each attribute
becomes an entry keyed with `@` plus the attribute's local name. -/
def specAttrs (attrib : List (String × String)) : List (String × NValue) :=
  attrib.map (fun kv => ("@" ++ localname kv.1, NValue.scalar (some kv.2)))

/-- Specification-side child grouping of the normalizer: for each child
local name in first-occurrence order, the children of that name in
document order — a name occurring once keeps its single normalized value,
a name occurring more than once becomes a repeated group. -/
def specGrouped (children : List XmlE) : List (String × NValue) :=
  (dedupFirst (children.map (fun c => localname c.tag))).map (fun n =>
    (n, match (children.filter (fun c => localname c.tag == n)).map element_to_dict with
        | [v] => v
        | vs => NValue.group vs))

/-- Code-point lexicographic strict order on character lists (the order
Python's `sorted` uses on strings). -/
def charListLt : List Char → List Char → Bool
  | [], [] => false
  | [], _ :: _ => true
  | _ :: _, [] => false
  | a :: as, b :: bs => if a < b then true else if a == b then charListLt as bs else false

/-- Non-strict lexicographic order on strings. -/
def strLe (a b : String) : Bool := a == b || charListLt a.data b.data

/-- Insert a string into a lexicographically sorted list. -/
def insertSorted (s : String) : List String → List String
  | [] => [s]
  | t :: rest => if strLe s t then s :: t :: rest else t :: insertSorted s rest

/-- Lexicographic insertion sort. -/
def sortStrings (l : List String) : List String := l.foldr insertSorted []

/-- The column schema claimed for the whole-document assembler: the
lexicographically sorted union of all keys observed across the flat
records. -/
def specSortedColumns (rows : List Flat) : List String :=
  sortStrings (dedupFirst (rows.flatMap (fun r => r.map Prod.fst)))

/-- The candidate groups contributed by one popped `(parent, depth)` pair
of the detector's traversal. -/
def candsOf (pd : XmlE × Nat) : List Cand :=
  (parentGroups pd.1).map (fun g => ⟨pd.2, g.1, g.2⟩)

/-- All candidate groups of the detector, in the order they are examined. -/
def allCands (root : XmlE) : List Cand :=
  (visitOrder root 0).flatMap candsOf

/-- Invariant of the detector's best-candidate fold: either nothing seen
so far qualifies and the best record is still the initial one, or the best
record comes from a seen qualifying candidate that no seen qualifying
candidate beats by `(count desc, parent-depth desc)`. -/
def detectInv (seen : List Cand) (b : BestG) : Prop :=
  (b = bestInit ∧ ∀ c ∈ seen, c.elems.length < 2) ∨
  (∃ c ∈ seen, 2 ≤ c.elems.length ∧
      b = ⟨c.elems.length, (c.depth : Int), some c.name, some c.elems⟩ ∧
      ∀ c' ∈ seen, 2 ≤ c'.elems.length →
        (c'.elems.length < c.elems.length ∨
          (c'.elems.length = c.elems.length ∧ c'.depth ≤ c.depth)))

/-- A qualifying sibling group for the detector: a parent node of the tree
(at its traversal depth) together with a local name shared by at least two
of its direct children. -/
def QualGroup (root : XmlE) (p : XmlE) (d : Nat) (n : String) : Prop :=
  (p, d) ∈ visitOrder root 0 ∧ 2 ≤ (siblingGroup p n).length

/-- The row element of the spec's first flattener example,
`<row><a>1</a><b><c>2</c></b></row>`. -/
def rowC2a : XmlE :=
  .mk "row" [] "" [.mk "a" [] "1" [], .mk "b" [] "" [.mk "c" [] "2" []]]

/-- The row element of the spec's second flattener example,
`<row><item><v>x</v></item><item><v>y</v></item><item><v>z</v></item></row>`. -/
def rowC2b : XmlE :=
  .mk "row" [] ""
    [.mk "item" [] "" [.mk "v" [] "x" []],
     .mk "item" [] "" [.mk "v" [] "y" []],
     .mk "item" [] "" [.mk "v" [] "z" []]]

/-- A document whose two row records expose their keys in non-sorted
first-appearance order: `<r><x><b>1</b></x><x><a>2</a></x></r>`. -/
def docC5 : XmlE :=
  .mk "r" [] ""
    [.mk "x" [] "" [.mk "b" [] "1" []],
     .mk "x" [] "" [.mk "a" [] "2" []]]

/-- A document where the streaming target tag also matches an element
outside the detected sibling group:
`<r><a><v>1</v></a><a><v>2</v></a><b><a><v>3</v></a></b></r>`. -/
def docC7 : XmlE :=
  .mk "r" [] ""
    [.mk "a" [] "" [.mk "v" [] "1" []],
     .mk "a" [] "" [.mk "v" [] "2" []],
     .mk "b" [] "" [.mk "a" [] "" [.mk "v" [] "3" []]]]

/-- A document where the streaming path selects exactly the detected
sibling group: `<r><a><v>1</v></a><a><v>2</v></a></r>`. -/
def docC7w : XmlE :=
  .mk "r" [] ""
    [.mk "a" [] "" [.mk "v" [] "1" []],
     .mk "a" [] "" [.mk "v" [] "2" []]]

/-- Twenty thousand distinct column labels. -/
def cols20k : List String := (List.range 20000).map (fun i => "c" ++ Nat.repr i)

theorem dictInsert_of_notMem (k : String) (v : α) (d : List (String × α))
    (h : k ∉ d.map Prod.fst) : dictInsert k v d = d ++ [(k, v)] := by
  induction d with
  | nil => rfl
  | cons kv rest ih =>
    obtain ⟨k', v'⟩ := kv
    simp only [List.map_cons, List.mem_cons, not_or] at h
    simp only [dictInsert, if_neg (Ne.symm h.1), List.cons_append, List.cons.injEq,
      true_and]
    exact ih h.2

theorem map_fst_dictInsert (k : String) (v : α) (d : List (String × α)) :
    (dictInsert k v d).map Prod.fst =
      if k ∈ d.map Prod.fst then d.map Prod.fst else d.map Prod.fst ++ [k] := by
  induction d with
  | nil => simp [dictInsert]
  | cons kv rest ih =>
    obtain ⟨k', v'⟩ := kv
    by_cases hk : k' = k
    · subst hk
      simp [dictInsert]
    · simp only [dictInsert, if_neg hk, List.map_cons, ih]
      by_cases hm : k ∈ rest.map Prod.fst
      · simp [hm, Ne.symm hk]
      · simp [hm, Ne.symm hk]

theorem nodup_map_fst_dictInsert (k : String) (v : α) (d : List (String × α))
    (h : (d.map Prod.fst).Nodup) : ((dictInsert k v d).map Prod.fst).Nodup := by
  rw [map_fst_dictInsert]
  by_cases hm : k ∈ d.map Prod.fst
  · simpa [hm] using h
  · simp only [hm, if_false]
    refine List.Nodup.append h (List.nodup_singleton k) ?_
    intro a ha hb
    simp only [List.mem_singleton] at hb
    subst hb
    exact hm ha

theorem nodup_map_fst_dictUpdate (other d : List (String × α))
    (h : (d.map Prod.fst).Nodup) : ((dictUpdate d other).map Prod.fst).Nodup := by
  induction other generalizing d with
  | nil => simpa [dictUpdate] using h
  | cons kv rest ih =>
    simp only [dictUpdate, List.foldl_cons]
    exact ih _ (nodup_map_fst_dictInsert kv.1 kv.2 d h)

theorem dictUpdate_append_of_disjoint (other d : List (String × α))
    (hn : (other.map Prod.fst).Nodup)
    (hd : ∀ x ∈ other.map Prod.fst, x ∉ d.map Prod.fst) :
    dictUpdate d other = d ++ other := by
  induction other generalizing d with
  | nil => simp [dictUpdate]
  | cons kv rest ih =>
    obtain ⟨k, v⟩ := kv
    simp only [List.map_cons, List.nodup_cons] at hn
    have h1 : dictInsert k v d = d ++ [(k, v)] :=
      dictInsert_of_notMem k v d (hd k (by simp))
    simp only [dictUpdate, List.foldl_cons]
    have h2 : rest.foldl (fun a p => dictInsert p.1 p.2 a) (dictInsert k v d)
        = dictUpdate (dictInsert k v d) rest := rfl
    rw [h2, h1, ih (d ++ [(k, v)]) hn.2]
    · simp
    · intro x hx
      simp only [List.map_append, List.mem_append, List.map_cons, List.map_nil,
        List.mem_singleton, not_or]
      refine ⟨hd x (by simp [hx]), ?_⟩
      intro e
      subst e
      exact hn.1 hx

theorem dictGet_eq_none_of_notMem (d : List (String × α)) (k : String)
    (h : k ∉ d.map Prod.fst) : dictGet d k = none := by
  have hf : d.find? (fun p => p.1 == k) = none := by
    rw [List.find?_eq_none]
    intro x hx
    simp only [beq_iff_eq]
    intro e
    exact h (by simp only [List.mem_map]; exact ⟨x, hx, e⟩)
  simp [dictGet, hf]

mutual
theorem flattenRec_keys_nodup (pk : String) (es : List (String × NValue)) (acc : Flat)
    (h : (acc.map Prod.fst).Nodup) : ((flattenRec pk es acc).map Prod.fst).Nodup := by
  cases es with
  | nil => simpa [flattenRec] using h
  | cons kv rest =>
    obtain ⟨k, v⟩ := kv
    simp only [flattenRec]
    exact flattenRec_keys_nodup pk rest _
      (flattenEntry_keys_nodup (if pk ≠ "" then pk ++ "." ++ k else k) v acc h)
theorem flattenEntry_keys_nodup (nk : String) (v : NValue) (acc : Flat)
    (h : (acc.map Prod.fst).Nodup) : ((flattenEntry nk v acc).map Prod.fst).Nodup := by
  cases v with
  | scalar s => simpa [flattenEntry] using nodup_map_fst_dictInsert nk s acc h
  | record es => simpa [flattenEntry] using nodup_map_fst_dictUpdate (flattenRec nk es []) acc h
  | group items => simpa [flattenEntry] using flattenItems_keys_nodup nk 0 items acc h
theorem flattenItems_keys_nodup (pk : String) (i : Nat) (items : List NValue) (acc : Flat)
    (h : (acc.map Prod.fst).Nodup) : ((flattenItems pk i items acc).map Prod.fst).Nodup := by
  cases items with
  | nil => simpa [flattenItems] using h
  | cons item rest =>
    simp only [flattenItems]
    exact flattenItems_keys_nodup pk (i+1) rest _
      (nodup_map_fst_dictUpdate (flatten_dict_all item (pk ++ "[" ++ Nat.repr i ++ "]")) acc h)
end

theorem flatten_keys_nodup (obj : NValue) (pk : String) :
    ((flatten_dict_all obj pk).map Prod.fst).Nodup := by
  cases obj with
  | scalar s =>
    by_cases hp : pk ≠ "" <;> simp [flatten_dict_all, hp]
  | record es =>
    simpa [flatten_dict_all] using flattenRec_keys_nodup pk es [] (by simp)
  | group items =>
    simpa [flatten_dict_all] using flattenItems_keys_nodup pk 0 items [] (by simp)

mutual
theorem flatten_eq_asg (obj : NValue) (pk : String)
    (hn : ((asgV obj pk).map Prod.fst).Nodup) :
    flatten_dict_all obj pk = asgV obj pk := by
  cases obj with
  | scalar s => rfl
  | record es =>
    simpa [flatten_dict_all, asgV] using
      flattenRec_eq_asg pk es [] (by simpa [asgV] using hn) (by simp)
  | group items =>
    simpa [flatten_dict_all, asgV] using
      flattenItems_eq_asg pk 0 items [] (by simpa [asgV] using hn) (by simp)
theorem flattenRec_eq_asg (pk : String) (es : List (String × NValue)) (acc : Flat)
    (hn : ((asgRec pk es).map Prod.fst).Nodup)
    (hd : ∀ x ∈ (asgRec pk es).map Prod.fst, x ∉ acc.map Prod.fst) :
    flattenRec pk es acc = acc ++ asgRec pk es := by
  cases es with
  | nil => simp [flattenRec, asgRec]
  | cons kv rest =>
    obtain ⟨k, v⟩ := kv
    set nk := if pk ≠ "" then pk ++ "." ++ k else k with hnk
    have hasg : asgRec pk ((k, v) :: rest) = asgEntry nk v ++ asgRec pk rest := rfl
    rw [hasg] at hn hd
    simp only [List.map_append, List.nodup_append] at hn
    have h1 : flattenEntry nk v acc = acc ++ asgEntry nk v :=
      flattenEntry_eq_asg nk v acc hn.1
        (fun x hx => hd x (by rw [List.map_append]; exact List.mem_append_left _ hx))
    have h2 : flattenRec pk ((k, v) :: rest) acc = flattenRec pk rest (flattenEntry nk v acc) := rfl
    rw [h2, h1]
    rw [flattenRec_eq_asg pk rest (acc ++ asgEntry nk v) hn.2.1 ?_, hasg, List.append_assoc]
    intro x hx
    simp only [List.map_append, List.mem_append, not_or]
    refine ⟨hd x ?_, fun hmem => hn.2.2 hmem hx⟩
    rw [List.map_append]
    exact List.mem_append_right _ hx
theorem flattenEntry_eq_asg (nk : String) (v : NValue) (acc : Flat)
    (hn : ((asgEntry nk v).map Prod.fst).Nodup)
    (hd : ∀ x ∈ (asgEntry nk v).map Prod.fst, x ∉ acc.map Prod.fst) :
    flattenEntry nk v acc = acc ++ asgEntry nk v := by
  cases v with
  | scalar s =>
    simpa [flattenEntry, asgEntry] using
      dictInsert_of_notMem nk s acc (hd nk (by simp [asgEntry]))
  | record es =>
    have h0 : flattenRec nk es [] = asgRec nk es := by
      simpa using flattenRec_eq_asg nk es [] (by simpa [asgEntry] using hn) (by simp)
    simp only [flattenEntry, h0]
    exact dictUpdate_append_of_disjoint _ acc (by simpa [asgEntry] using hn)
      (fun x hx => hd x (by simpa [asgEntry] using hx))
  | group items =>
    simpa [flattenEntry, asgEntry] using
      flattenItems_eq_asg nk 0 items acc (by simpa [asgEntry] using hn)
        (fun x hx => hd x (by simpa [asgEntry] using hx))
theorem flattenItems_eq_asg (pk : String) (i : Nat) (items : List NValue) (acc : Flat)
    (hn : ((asgItems pk i items).map Prod.fst).Nodup)
    (hd : ∀ x ∈ (asgItems pk i items).map Prod.fst, x ∉ acc.map Prod.fst) :
    flattenItems pk i items acc = acc ++ asgItems pk i items := by
  cases items with
  | nil => simp [flattenItems, asgItems]
  | cons item rest =>
    have hasg : asgItems pk i (item :: rest)
        = asgV item (pk ++ "[" ++ Nat.repr i ++ "]") ++ asgItems pk (i+1) rest := rfl
    rw [hasg] at hn hd
    simp only [List.map_append, List.nodup_append] at hn
    have hV : flatten_dict_all item (pk ++ "[" ++ Nat.repr i ++ "]")
        = asgV item (pk ++ "[" ++ Nat.repr i ++ "]") := flatten_eq_asg item _ hn.1
    have h2 : flattenItems pk i (item :: rest) acc
        = flattenItems pk (i+1) rest
            (dictUpdate acc (flatten_dict_all item (pk ++ "[" ++ Nat.repr i ++ "]"))) := rfl
    rw [h2, hV]
    rw [dictUpdate_append_of_disjoint _ acc hn.1
      (fun x hx => hd x (by rw [List.map_append]; exact List.mem_append_left _ hx))]
    rw [flattenItems_eq_asg pk (i+1) rest (acc ++ asgV item (pk ++ "[" ++ Nat.repr i ++ "]"))
      hn.2.1 ?_, hasg, List.append_assoc]
    intro x hx
    simp only [List.map_append, List.mem_append, not_or]
    refine ⟨hd x ?_, fun hmem => hn.2.2 hmem hx⟩
    rw [List.map_append]
    exact List.mem_append_right _ hx
end

/-- C2: for every normalized value, the flattener composes a `Record`
entry's key as `parent.key`, a `RepeatedGroup` member's key as
`parent[index]` with 0-based indices (recursing with the indexed string as
the new parent), assigns a `Scalar` leaf directly at its composed key, and
emits no leading separator at the top level: whenever the composed keys
are distinct, the flat record is exactly the list of specification-side
assignments `asgV` in traversal order; in particular the two example rows
flatten as the spec states. -/
theorem C2_flattener_composition :
    (∀ (obj : NValue) (pk : String),
        ((asgV obj pk).map Prod.fst).Nodup → flatten_dict_all obj pk = asgV obj pk)
    ∧ flatten_dict_all (element_to_dict rowC2a) "" = [("a", some "1"), ("b.c", some "2")]
    ∧ flatten_dict_all (element_to_dict rowC2b) ""
        = [("item[0].v", some "x"), ("item[1].v", some "y"), ("item[2].v", some "z")] :=
  ⟨flatten_eq_asg, rfl, rfl⟩

/-- Witness for C2 at the first example row: the composed keys are
distinct there and the flattener agrees with the assignment list. -/
theorem C2_witness :
    ((asgV (element_to_dict rowC2a) "").map Prod.fst).Nodup
    ∧ flatten_dict_all (element_to_dict rowC2a) "" = asgV (element_to_dict rowC2a) "" :=
  ⟨by decide, C2_flattener_composition.1 (element_to_dict rowC2a) "" (by decide)⟩

/-- C10: flattening a bare scalar with the empty top-level parent key
yields the empty flat record — the scalar value is discarded — and hence a
detected row element without child elements (a text-only leaf, whose
normalized value is a scalar) contributes no keys at all. -/
theorem C10_bare_scalar_dropped :
    (∀ s : Option String, flatten_dict_all (NValue.scalar s) "" = [])
    ∧ (∀ (t : String) (attrib : List (String × String)) (x : String),
        flatten_dict_all (element_to_dict (XmlE.mk t attrib x [])) "" = []) := by
  constructor
  · intro s
    rfl
  · intro t attrib x
    by_cases hx : pyStrip x = "" <;> simp [element_to_dict, hx, flatten_dict_all]

theorem map_fst_keyed (f : String → β) : ∀ l : List String,
    (l.map (fun n => (n, f n))).map Prod.fst = l
  | [] => rfl
  | a :: l => by simp [map_fst_keyed f l]

theorem mem_dedupFirst (k : String) : ∀ l : List String, k ∈ dedupFirst l ↔ k ∈ l
  | [] => by simp [dedupFirst]
  | s :: rest => by
    simp only [dedupFirst, List.mem_cons, List.mem_filter, mem_dedupFirst k rest, bne_iff_ne]
    by_cases hk : k = s
    · subst hk
      simp
    · simp [hk]

theorem nodup_dedupFirst : ∀ l : List String, (dedupFirst l).Nodup
  | [] => by simp [dedupFirst]
  | s :: rest => by
    simp only [dedupFirst, List.nodup_cons]
    refine ⟨fun hmem => ?_, (nodup_dedupFirst rest).filter _⟩
    have := List.of_mem_filter hmem
    simp at this

theorem dedupFirst_append_single (k : String) : ∀ ks : List String,
    dedupFirst (ks ++ [k]) = if k ∈ ks then dedupFirst ks else dedupFirst ks ++ [k]
  | [] => by simp [dedupFirst]
  | s :: rest => by
    have ih := dedupFirst_append_single k rest
    show dedupFirst (s :: (rest ++ [k])) = _
    rw [show dedupFirst (s :: (rest ++ [k]))
          = s :: (dedupFirst (rest ++ [k])).filter (fun t => t != s) from rfl, ih]
    by_cases hm : k ∈ rest
    · rw [if_pos hm, if_pos (List.mem_cons.2 (Or.inr hm))]
      rfl
    · rw [if_neg hm]
      by_cases hk : k = s
      · subst hk
        rw [if_pos (List.mem_cons.2 (Or.inl rfl)), List.filter_append]
        simp [dedupFirst]
      · rw [if_neg (by simp [hk, hm]), List.filter_append]
        simp [dedupFirst, hk]

theorem addToGroups_map_of_mem (k : String) (v : α) (g : String → List α) :
    ∀ ks : List String, ks.Nodup → k ∈ ks →
      addToGroups k v (ks.map (fun k0 => (k0, g k0)))
        = ks.map (fun k0 => (k0, if k0 = k then g k0 ++ [v] else g k0))
  | [], _, h => absurd h (by simp)
  | s :: rest, hnd, h => by
    simp only [List.nodup_cons] at hnd
    simp only [List.map_cons, addToGroups]
    by_cases hs : s = k
    · subst hs
      rw [if_pos rfl, if_pos rfl]
      congr 1
      apply List.map_congr_left
      intro a ha
      have hne : ¬ a = s := fun e => hnd.1 (e ▸ ha)
      simp [hne]
    · rw [if_neg hs]
      have hk : k ∈ rest := by
        rcases List.mem_cons.1 h with he | hm
        · exact absurd he.symm hs
        · exact hm
      rw [addToGroups_map_of_mem k v g rest hnd.2 hk]
      simp [hs]

theorem addToGroups_map_of_notMem (k : String) (v : α) (g : String → List α) :
    ∀ ks : List String, k ∉ ks →
      addToGroups k v (ks.map (fun k0 => (k0, g k0)))
        = ks.map (fun k0 => (k0, g k0)) ++ [(k, [v])]
  | [], _ => rfl
  | s :: rest, h => by
    simp only [List.mem_cons, not_or] at h
    simp only [List.map_cons, addToGroups, if_neg (Ne.symm h.1), List.cons_append,
      List.cons.injEq, true_and]
    exact addToGroups_map_of_notMem k v g rest h.2

theorem toGroups_snoc (xs : List (String × α)) (k : String) (v : α) :
    addToGroups k v (toGroups xs) = toGroups (xs ++ [(k, v)]) := by
  unfold toGroups
  have hkeys : (xs ++ [(k, v)]).map Prod.fst = xs.map Prod.fst ++ [k] := by simp
  rw [hkeys, dedupFirst_append_single]
  by_cases hm : k ∈ xs.map Prod.fst
  · rw [if_pos hm,
      addToGroups_map_of_mem k v _ _ (nodup_dedupFirst _) ((mem_dedupFirst k _).2 hm)]
    apply List.map_congr_left
    intro a ha
    by_cases hak : a = k
    · subst hak
      simp [List.filter_append]
    · have : ¬ ((k : String) == a) = true := by simp [Ne.symm hak]
      simp [List.filter_append, hak, this]
  · rw [if_neg hm,
      addToGroups_map_of_notMem k v _ _ (fun hc => hm ((mem_dedupFirst k _).1 hc)),
      List.map_append]
    have hfil : xs.filter (fun p => p.1 == k) = [] := by
      rw [List.filter_eq_nil_iff]
      intro p hp
      simp only [beq_iff_eq]
      intro e
      exact hm (List.mem_map.2 ⟨p, hp, e⟩)
    congr 1
    · apply List.map_congr_left
      intro a ha
      have hak : a ≠ k := fun e => hm (e ▸ (mem_dedupFirst a _).1 ha)
      have : ¬ ((k : String) == a) = true := by simp [Ne.symm hak]
      simp [List.filter_append, this]
    · simp [List.filter_append, hfil]

theorem foldl_addToGroups_toGroups : ∀ (ys xs : List (String × α)),
    ys.foldl (fun g kv => addToGroups kv.1 kv.2 g) (toGroups xs) = toGroups (xs ++ ys)
  | [], xs => by simp
  | kv :: ys, xs => by
    obtain ⟨k, v⟩ := kv
    simp only [List.foldl_cons]
    rw [toGroups_snoc xs k v, foldl_addToGroups_toGroups ys (xs ++ [(k, v)])]
    simp

theorem groupPairs_eq_toGroups (kvs : List (String × α)) : groupPairs kvs = toGroups kvs := by
  have h := foldl_addToGroups_toGroups kvs []
  simp only [List.nil_append] at h
  rw [← h]
  rfl

theorem childPairs_eq_map : ∀ cs : List XmlE,
    childPairs cs = cs.map (fun c => (localname c.tag, element_to_dict c))
  | [] => rfl
  | c :: rest => by
    simp only [childPairs, childPairs_eq_map rest, List.map_cons]

theorem parentGroups_eq (p : XmlE) :
    parentGroups p = (dedupFirst (p.children.map (fun c => localname c.tag))).map
      (fun n => (n, siblingGroup p n)) := by
  unfold parentGroups siblingGroup
  rw [groupPairs_eq_toGroups]
  unfold toGroups
  rw [List.map_map]
  apply List.map_congr_left
  intro n _
  rw [List.filter_map, List.map_map]
  have h1 : (Prod.snd ∘ fun c : XmlE => (localname c.tag, c)) = fun c => c := rfl
  have h2 : ((fun p : String × XmlE => p.1 == n) ∘ fun c : XmlE => (localname c.tag, c))
      = fun c => localname c.tag == n := rfl
  rw [h1, h2, List.map_id']

theorem mem_parentGroups_elems {p : XmlE} {n : String} {els : List XmlE}
    (h : (n, els) ∈ parentGroups p) : els = siblingGroup p n := by
  rw [parentGroups_eq] at h
  obtain ⟨a, _, he⟩ := List.mem_map.1 h
  cases he
  rfl

theorem siblingGroup_mem_parentGroups {p : XmlE} {n : String}
    (h : siblingGroup p n ≠ []) : (n, siblingGroup p n) ∈ parentGroups p := by
  rw [parentGroups_eq]
  refine List.mem_map.2 ⟨n, ?_, rfl⟩
  rw [mem_dedupFirst]
  obtain ⟨c, hc⟩ := List.exists_mem_of_ne_nil _ h
  have hmem := List.mem_filter.1 hc
  simp only [beq_iff_eq] at hmem
  exact List.mem_map.2 ⟨c, hmem.1, hmem.2⟩

/-- C3 counterexample: the leaf element `<t x="1">v</t>` (an attribute, no
child elements) normalizes to the bare scalar of its text; its attribute
does not become a `Record` entry keyed `@x` — the result is not a record
at all — refuting the claim that every attribute becomes a `Record` entry
keyed `@localname`. -/
theorem C3_counterexample :
    element_to_dict (XmlE.mk "t" [("x", "1")] "v" []) = NValue.scalar (some "v")
    ∧ element_to_dict (XmlE.mk "t" [("x", "1")] "v" [])
        ≠ NValue.record [("@x", NValue.scalar (some "1"))] := by
  refine ⟨rfl, fun h => ?_⟩
  exact NValue.noConfusion
    (h : NValue.scalar (some "v") = NValue.record [("@x", NValue.scalar (some "1"))])

/-- C3 amended: the normalizer strips namespace prefixes from tag and
attribute names; for an element WITH child elements, every attribute
becomes a `Record` entry keyed `@localname` (before the child entries) and
the children are grouped by local name — a name occurring once keeps its
single value, a name occurring more than once becomes a `RepeatedGroup` in
document order; a LEAF element maps to its trimmed text, or null when the
text is empty after trimming, and its attributes are discarded.  Stated
under the side conditions that attribute keys are distinct and do not
collide with child local names (dict overwriting on collisions is
unspecified). -/
theorem C3_normalizer_amended (t : String) (attrib : List (String × String)) (x : String)
    (children : List XmlE)
    (hA : ((specAttrs attrib).map Prod.fst).Nodup)
    (hD : ∀ k ∈ (specAttrs attrib).map Prod.fst,
      k ∉ children.map (fun c => localname c.tag)) :
    element_to_dict (XmlE.mk t attrib x children)
      = if children.isEmpty then
          (if pyStrip x = "" then NValue.scalar none else NValue.scalar (some (pyStrip x)))
        else NValue.record (specAttrs attrib ++ specGrouped children) := by
  cases children with
  | nil => simp [element_to_dict]
  | cons c cs =>
    rw [if_neg (by simp)]
    have hdata : attrib.foldl
        (fun d kv => dictInsert ("@" ++ localname kv.1) (NValue.scalar (some kv.2)) d) []
        = specAttrs attrib := by
      have h1 : dictUpdate [] (specAttrs attrib)
          = attrib.foldl
              (fun d kv => dictInsert ("@" ++ localname kv.1) (NValue.scalar (some kv.2)) d) [] := by
        simp only [dictUpdate, specAttrs, List.foldl_map]
      rw [← h1, dictUpdate_append_of_disjoint _ _ hA (by simp), List.nil_append]
    have hkeys : ((c :: cs).map (fun ch => (localname ch.tag, element_to_dict ch))).map Prod.fst
        = (c :: cs).map (fun ch => localname ch.tag) := by
      rw [List.map_map]
      rfl
    have hent : (groupPairs (childPairs (c :: cs))).map
          (fun g => (g.1, match g.2 with | [v] => v | vs => NValue.group vs))
        = specGrouped (c :: cs) := by
      rw [childPairs_eq_map, groupPairs_eq_toGroups]
      unfold toGroups specGrouped
      rw [hkeys, List.map_map]
      apply List.map_congr_left
      intro n _
      have hval : (((c :: cs).map (fun ch => (localname ch.tag, element_to_dict ch))).filter
            (fun p => p.1 == n)).map Prod.snd
          = ((c :: cs).filter (fun ch => localname ch.tag == n)).map element_to_dict := by
        rw [List.filter_map, List.map_map]
        have hp : ((fun p : String × NValue => p.1 == n)
              ∘ fun ch : XmlE => (localname ch.tag, element_to_dict ch))
            = fun ch => localname ch.tag == n := rfl
        have hs : (Prod.snd ∘ fun ch : XmlE => (localname ch.tag, element_to_dict ch))
            = element_to_dict := rfl
        rw [hp, hs]
      simp only [Function.comp]
      rw [hval]
    have hgk : (specGrouped (c :: cs)).map Prod.fst
        = dedupFirst ((c :: cs).map (fun ch => localname ch.tag)) := by
      unfold specGrouped
      exact map_fst_keyed _ _
    have hstep : element_to_dict (XmlE.mk t attrib x (c :: cs))
        = NValue.record (dictUpdate (specAttrs attrib)
            ((groupPairs (childPairs (c :: cs))).map
              (fun g => (g.1, match g.2 with | [v] => v | vs => NValue.group vs)))) := by
      simp only [element_to_dict]
      rw [hdata]
    rw [hstep, hent]
    congr 1
    refine dictUpdate_append_of_disjoint _ _ ?_ ?_
    · rw [hgk]
      exact nodup_dedupFirst _
    · intro k hk hk2
      have hk3 : k ∈ (c :: cs).map (fun ch => localname ch.tag) := by
        rw [hgk, mem_dedupFirst] at hk
        exact hk
      exact hD k hk2 hk3

/-- Witness for C3 amended at `<t x="1"><a>2</a></t>`: the attribute and
the single child produce the record with the `@x` entry followed by the
grouped child entry. -/
theorem C3_witness :
    ((specAttrs [("x", "1")]).map Prod.fst).Nodup
    ∧ element_to_dict (XmlE.mk "t" [("x", "1")] "" [XmlE.mk "a" [] "2" []])
        = NValue.record (specAttrs [("x", "1")] ++ specGrouped [XmlE.mk "a" [] "2" []]) := by
  refine ⟨by decide, ?_⟩
  have h := C3_normalizer_amended "t" [("x", "1")] "" [XmlE.mk "a" [] "2" []]
    (by decide) (by decide)
  simpa using h

theorem foldl_flatMap (f : α → List β) (g : γ → β → γ) :
    ∀ (l : List α) (b : γ),
      List.foldl g b (l.flatMap f) = List.foldl (fun acc a => List.foldl g acc (f a)) b l
  | [], _ => rfl
  | a :: l, b => by
    simp only [List.flatMap_cons, List.foldl_append, List.foldl_cons]
    exact foldl_flatMap f g l _

theorem drrStep_eq_candFold (b : BestG) (pd : XmlE × Nat) :
    drrStep b pd = (candsOf pd).foldl candStep b := by
  unfold drrStep candsOf
  by_cases h : pd.1.children.isEmpty
  · have hc : pd.1.children = [] := List.isEmpty_iff.1 h
    have hpg : parentGroups pd.1 = [] := by
      unfold parentGroups
      rw [hc]
      rfl
    rw [if_pos h, hpg]
    rfl
  · rw [if_neg h, List.foldl_map]

theorem detect_fold_eq (root : XmlE) :
    (visitOrder root 0).foldl drrStep bestInit = (allCands root).foldl candStep bestInit := by
  unfold allCands
  rw [foldl_flatMap]
  have hf : drrStep = fun b pd => (candsOf pd).foldl candStep b := by
    funext b pd
    exact drrStep_eq_candFold b pd
  rw [hf]

theorem detectInv_step {seen : List Cand} {b : BestG} (h : detectInv seen b) (c : Cand) :
    detectInv (seen ++ [c]) (candStep b c) := by
  unfold candStep
  by_cases hcond : 2 ≤ c.elems.length ∧
      (b.count < c.elems.length ∨ (c.elems.length = b.count ∧ b.depth < (c.depth : Int)))
  · rw [if_pos hcond]
    right
    refine ⟨c, by simp, hcond.1, rfl, ?_⟩
    intro c' hc' hq'
    rcases List.mem_append.1 hc' with hmem | hmem
    · rcases h with ⟨hb, hnone⟩ | ⟨cm, hcm, hqm, hbe, hmax⟩
      · have := hnone c' hmem
        omega
      · have hlex := hmax c' hmem hq'
        have hbc : b.count = cm.elems.length := by rw [hbe]
        have hbd : b.depth = (cm.depth : Int) := by rw [hbe]
        rw [hbc, hbd] at hcond
        rcases hcond.2 with h1 | h2
        · rcases hlex with hl | hl
          · left; omega
          · left; omega
        · have hdd : cm.depth < c.depth := by exact_mod_cast h2.2
          rcases hlex with hl | hl
          · left; omega
          · right
            exact ⟨by omega, by omega⟩
    · have he : c' = c := by simpa using hmem
      rw [he]
      right
      exact ⟨rfl, le_refl _⟩
  · rw [if_neg hcond]
    push_neg at hcond
    rcases h with ⟨hb, hnone⟩ | ⟨cm, hcm, hqm, hbe, hmax⟩
    · left
      refine ⟨hb, ?_⟩
      intro c' hc'
      rcases List.mem_append.1 hc' with hm | hm
      · exact hnone c' hm
      · have he : c' = c := by simpa using hm
        rw [he]
        by_contra hge
        push_neg at hge
        have h2 := hcond hge
        have hbc : b.count = 0 := by rw [hb]; rfl
        omega
    · right
      refine ⟨cm, List.mem_append_left _ hcm, hqm, hbe, ?_⟩
      intro c' hc' hq'
      rcases List.mem_append.1 hc' with hm | hm
      · exact hmax c' hm hq'
      · have he : c' = c := by simpa using hm
        rw [he] at hq' ⊢
        have h2 := hcond hq'
        have hbc : b.count = cm.elems.length := by rw [hbe]
        have hbd : b.depth = (cm.depth : Int) := by rw [hbe]
        rw [hbc, hbd] at h2
        rcases Nat.lt_or_ge c.elems.length cm.elems.length with hlt | hge2
        · left; exact hlt
        · have heq : c.elems.length = cm.elems.length := by
            have h4 := h2.1
            omega
          refine Or.inr ⟨heq, ?_⟩
          have h3 : (c.depth : Int) ≤ (cm.depth : Int) := h2.2 heq
          exact_mod_cast h3

theorem detectInv_foldl : ∀ (l seen : List Cand) (b : BestG), detectInv seen b →
    detectInv (seen ++ l) (l.foldl candStep b)
  | [], seen, b, h => by simpa using h
  | c :: l, seen, b, h => by
    have h2 := detectInv_foldl l (seen ++ [c]) (candStep b c) (detectInv_step h c)
    simpa [List.append_assoc] using h2

theorem cand_mem_allCands {root : XmlE} {c : Cand} (hc : c ∈ allCands root) :
    ∃ p, (p, c.depth) ∈ visitOrder root 0 ∧ c.elems = siblingGroup p c.name := by
  obtain ⟨pd, hpd, hcand⟩ := List.mem_flatMap.1 hc
  obtain ⟨g, hg, he⟩ := List.mem_map.1 hcand
  cases he
  exact ⟨pd.1, hpd, mem_parentGroups_elems hg⟩

theorem qualGroup_mem_allCands {root : XmlE} {p : XmlE} {d : Nat} {n : String}
    (h : QualGroup root p d n) : (⟨d, n, siblingGroup p n⟩ : Cand) ∈ allCands root := by
  apply List.mem_flatMap.2
  refine ⟨(p, d), h.1, ?_⟩
  show (⟨d, n, siblingGroup p n⟩ : Cand) ∈ (parentGroups p).map (fun g => ⟨d, g.1, g.2⟩)
  apply List.mem_map.2
  refine ⟨(n, siblingGroup p n), ?_, rfl⟩
  apply siblingGroup_mem_parentGroups
  intro he
  have h2 := h.2
  rw [he] at h2
  simp at h2

/-- C1: on every XML tree the whole-document row detector returns a
sibling group (the direct children of one traversal node sharing a local
name) with at least two members that no other such group beats by
`(count desc, parent-depth desc)`, root depth 0; when no group has at
least two members it returns the root's direct children, and when the
root is childless it returns the root itself; the returned elements are
the group members in document order.  In particular
`<root><a/></root>` yields `[a]` and `<root/>` yields `[root]`. -/
theorem C1_detector (root : XmlE) :
    ((¬ ∃ p d n, QualGroup root p d n) →
        detect_repeating_rows root = if root.children.isEmpty then [root] else root.children)
    ∧ ((∃ p d n, QualGroup root p d n) →
        ∃ p d n, QualGroup root p d n ∧ detect_repeating_rows root = siblingGroup p n ∧
          ∀ p' d' n', QualGroup root p' d' n' →
            ((siblingGroup p' n').length < (siblingGroup p n).length ∨
              ((siblingGroup p' n').length = (siblingGroup p n).length ∧ d' ≤ d)))
    ∧ detect_repeating_rows (XmlE.mk "root" [] "" [XmlE.mk "a" [] "" []])
        = [XmlE.mk "a" [] "" []]
    ∧ detect_repeating_rows (XmlE.mk "root" [] "" []) = [XmlE.mk "root" [] "" []] := by
  have hinv : detectInv (allCands root) ((allCands root).foldl candStep bestInit) := by
    have h0 : detectInv [] bestInit := Or.inl ⟨rfl, by simp⟩
    simpa using detectInv_foldl (allCands root) [] bestInit h0
  have hdet : detect_repeating_rows root
      = (match ((allCands root).foldl candStep bestInit).elems with
          | some els => els
          | none => if root.children.isEmpty then [root] else root.children) := by
    unfold detect_repeating_rows
    rw [detect_fold_eq]
  refine ⟨?_, ?_, rfl, rfl⟩
  · intro hno
    rcases hinv with ⟨hb, _⟩ | ⟨cm, hcm, hqm, _, _⟩
    · rw [hdet, hb]
      rfl
    · exfalso
      apply hno
      obtain ⟨p, hpvis, hels⟩ := cand_mem_allCands hcm
      refine ⟨p, cm.depth, cm.name, hpvis, ?_⟩
      rw [← hels]
      exact hqm
  · rintro ⟨p₀, d₀, n₀, hq₀⟩
    rcases hinv with ⟨_, hnone⟩ | ⟨cm, hcm, hqm, hbe, hmax⟩
    · exfalso
      have h2 : (siblingGroup p₀ n₀).length < 2 := hnone _ (qualGroup_mem_allCands hq₀)
      have h3 := hq₀.2
      omega
    · obtain ⟨p, hpvis, hels⟩ := cand_mem_allCands hcm
      refine ⟨p, cm.depth, cm.name, ⟨hpvis, by rw [← hels]; exact hqm⟩, ?_, ?_⟩
      · rw [hdet, hbe, ← hels]
      · intro p' d' n' hq'
        have hlex := hmax _ (qualGroup_mem_allCands hq') hq'.2
        rw [← hels]
        exact hlex

/-- Witness for C1 on a tree with two qualifying groups of equal count at
different depths: the detector picks the deeper one. -/
theorem C1_witness :
    (∃ p d n, QualGroup (XmlE.mk "r" [] ""
        [XmlE.mk "a" [] "" [], XmlE.mk "a" [] "" [],
         XmlE.mk "b" [] "" [XmlE.mk "c" [] "" [], XmlE.mk "c" [] "" []]]) p d n)
    ∧ detect_repeating_rows (XmlE.mk "r" [] ""
        [XmlE.mk "a" [] "" [], XmlE.mk "a" [] "" [],
         XmlE.mk "b" [] "" [XmlE.mk "c" [] "" [], XmlE.mk "c" [] "" []]])
        = [XmlE.mk "c" [] "" [], XmlE.mk "c" [] "" []] := by
  constructor
  · refine ⟨XmlE.mk "r" [] ""
      [XmlE.mk "a" [] "" [], XmlE.mk "a" [] "" [],
       XmlE.mk "b" [] "" [XmlE.mk "c" [] "" [], XmlE.mk "c" [] "" []]], 0, "a", ?_, ?_⟩
    · exact List.mem_cons_self _ _
    · decide
  · rfl

theorem mem_addCols (k : String) : ∀ (r : Flat) (cols : List String),
    k ∈ addCols cols r ↔ k ∈ cols ∨ k ∈ r.map Prod.fst
  | [], cols => by simp [addCols]
  | kv :: rest, cols => by
    have hstep : addCols cols (kv :: rest)
        = addCols (if cols.contains kv.1 then cols else cols ++ [kv.1]) rest := rfl
    rw [hstep, mem_addCols k rest _]
    by_cases hc : cols.contains kv.1
    · have hm : kv.1 ∈ cols := by simpa using hc
      simp only [if_pos hc, List.map_cons, List.mem_cons]
      constructor
      · rintro (h | h)
        · exact Or.inl h
        · exact Or.inr (Or.inr h)
      · rintro (h | h | h)
        · exact Or.inl h
        · exact Or.inl (h ▸ hm)
        · exact Or.inr h
    · simp only [if_neg hc, List.mem_append, List.mem_singleton, List.map_cons, List.mem_cons]
      tauto
theorem nodup_addCols : ∀ (r : Flat) (cols : List String), cols.Nodup → (addCols cols r).Nodup
  | [], _, h => h
  | kv :: rest, cols, h => by
    have hstep : addCols cols (kv :: rest)
        = addCols (if cols.contains kv.1 then cols else cols ++ [kv.1]) rest := rfl
    rw [hstep]
    by_cases hc : cols.contains kv.1
    · rw [if_pos hc]
      exact nodup_addCols rest cols h
    · rw [if_neg hc]
      refine nodup_addCols rest _ ?_
      refine List.Nodup.append h (List.nodup_singleton _) ?_
      intro a ha hb
      simp only [List.mem_singleton] at hb
      subst hb
      exact hc (by simpa using ha)

theorem addCols_of_subset : ∀ (r : Flat) (cols : List String),
    (∀ k ∈ r.map Prod.fst, k ∈ cols) → addCols cols r = cols
  | [], _, _ => rfl
  | kv :: rest, cols, h => by
    have hstep : addCols cols (kv :: rest)
        = addCols (if cols.contains kv.1 then cols else cols ++ [kv.1]) rest := rfl
    have hc : cols.contains kv.1 := by
      have : kv.1 ∈ cols := h kv.1 (by simp)
      simpa using this
    rw [hstep, if_pos hc]
    exact addCols_of_subset rest cols (fun k hk => h k (by simp [hk]))

theorem addCols_append : ∀ (r : Flat) (cols : List String), (r.map Prod.fst).Nodup →
    (∀ k ∈ r.map Prod.fst, k ∉ cols) → addCols cols r = cols ++ r.map Prod.fst
  | [], cols, _, _ => by simp [addCols]
  | kv :: rest, cols, hn, hd => by
    have hstep : addCols cols (kv :: rest)
        = addCols (if cols.contains kv.1 then cols else cols ++ [kv.1]) rest := rfl
    have hc : ¬ cols.contains kv.1 = true := by
      intro hc
      exact hd kv.1 (by simp) (by simpa using hc)
    rw [hstep, if_neg hc]
    simp only [List.map_cons, List.nodup_cons] at hn
    rw [addCols_append rest (cols ++ [kv.1]) hn.2 ?_]
    · simp
    · intro k hk
      simp only [List.mem_append, List.mem_singleton, not_or]
      refine ⟨hd k (by simp [hk]), ?_⟩
      intro e
      subst e
      exact hn.1 hk

theorem mem_foldl_addCols (k : String) : ∀ (rows : List Flat) (cols : List String),
    k ∈ rows.foldl addCols cols ↔ k ∈ cols ∨ ∃ r ∈ rows, k ∈ r.map Prod.fst
  | [], cols => by simp
  | r :: rows, cols => by
    simp only [List.foldl_cons, mem_foldl_addCols k rows, mem_addCols k r cols]
    constructor
    · rintro ((h | h) | ⟨r', hr', h⟩)
      · exact Or.inl h
      · exact Or.inr ⟨r, by simp, h⟩
      · exact Or.inr ⟨r', by simp [hr'], h⟩
    · rintro (h | ⟨r', hr', h⟩)
      · exact Or.inl (Or.inl h)
      · rcases List.mem_cons.1 hr' with he | hm
        · exact Or.inl (Or.inr (he ▸ h))
        · exact Or.inr ⟨r', hm, h⟩

theorem nodup_foldl_addCols : ∀ (rows : List Flat) (cols : List String),
    cols.Nodup → (rows.foldl addCols cols).Nodup
  | [], _, h => h
  | r :: rows, cols, h => by
    simp only [List.foldl_cons]
    exact nodup_foldl_addCols rows _ (nodup_addCols r cols h)

theorem foldl_addCols_const : ∀ (rows : List Flat) (cols : List String),
    (∀ r ∈ rows, ∀ k ∈ r.map Prod.fst, k ∈ cols) → rows.foldl addCols cols = cols
  | [], _, _ => rfl
  | r :: rows, cols, h => by
    simp only [List.foldl_cons]
    rw [addCols_of_subset r cols (h r (by simp))]
    exact foldl_addCols_const rows cols (fun r' hr' => h r' (by simp [hr']))

/-- C5 counterexample: on `<r><x><b>1</b></x><x><a>2</a></x></r>` the
assembled column schema is `["b", "a"]` — the union of keys in order of
first appearance — while the lexicographically sorted union is
`["a", "b"]`; the two differ, refuting the sorted-schema claim. -/
theorem C5_counterexample :
    (xml_rows_to_dataframe docC5).columns = ["b", "a"]
    ∧ specSortedColumns (docFlats docC5) = ["a", "b"]
    ∧ (xml_rows_to_dataframe docC5).columns ≠ specSortedColumns (docFlats docC5) := by
  refine ⟨rfl, rfl, ?_⟩
  decide

/-- C5 amended: the whole-document Tabular Assembler produces a table
whose column schema is the duplicate-free union of all keys observed
across the flattened row records, in order of first appearance (not
sorted), with a null cell (`none`) for every record that lacks a key. -/
theorem C5_assembler_amended (root : XmlE) :
    (xml_rows_to_dataframe root).columns.Nodup
    ∧ (∀ k, k ∈ (xml_rows_to_dataframe root).columns
        ↔ ∃ r ∈ docFlats root, k ∈ r.map Prod.fst)
    ∧ (xml_rows_to_dataframe root).rows
        = (docFlats root).map (fun r => (xml_rows_to_dataframe root).columns.map (flatGet r))
    ∧ (∀ (r : Flat) (k : String), k ∉ r.map Prod.fst → flatGet r k = none) := by
  have hc : (xml_rows_to_dataframe root).columns = (docFlats root).foldl addCols [] := rfl
  refine ⟨?_, ?_, rfl, ?_⟩
  · rw [hc]
    exact nodup_foldl_addCols _ [] (by simp)
  · intro k
    rw [hc, mem_foldl_addCols]
    simp
  · intro r k hk
    exact dictGet_eq_none_of_notMem r k hk

/-- Witness for C5 at a concrete record lacking the key `a`: its cell is
null. -/
theorem C5_witness : flatGet [("b", some "1")] "a" = none :=
  (C5_assembler_amended docC5).2.2.2 [("b", some "1")] "a" (by decide)

theorem xlsx_sheet_count (records : List Flat) (header_cols : Option (List String)) :
    (stream_xlsx_to_path records header_cols).length = 1 := by
  simp only [stream_xlsx_to_path]
  split <;> rfl

theorem normHC_some_of_ne (h : List String) (hne : h ≠ []) : normHC (some h) = some h := by
  cases h with
  | nil => exact absurd rfl hne
  | cons a l => rfl

theorem isEmpty_false_of_ne (h : List String) (hne : h ≠ []) : h.isEmpty = false := by
  cases h with
  | nil => exact absurd rfl hne
  | cons a l => rfl

theorem stream_xlsx_explicit (records : List Flat) (h : List String) (hne : h ≠ []) :
    stream_xlsx_to_path records (some h)
      = [(h.map some) ::
          ((match records.head? with
            | some r => if rowHasData h r then [projRow h r] else []
            | none => []) ++ (records.filter (rowHasData h)).map (projRow h))] := by
  simp only [stream_xlsx_to_path, normHC_some_of_ne h hne, isEmpty_false_of_ne h hne]
  rfl

theorem stream_csv_explicit (records : List Flat) (h : List String) (hne : h ≠ []) :
    stream_csv_to_path records (some h)
      = (h.map some) :: (records.filter (rowHasData h)).map (projRow h) := by
  simp only [stream_csv_to_path, isEmpty_false_of_ne h hne]
  rfl

theorem stream_parquet_explicit (records : List Flat) (h : List String) (hne : h ≠ []) :
    stream_parquet_to_path records (some h) = records.map (projRow h) := by
  simp only [stream_parquet_to_path, normHC_some_of_ne h hne]

/-- C4 counterexample: exported with 20000 columns, the spreadsheet writer
produces exactly one sheet, not the claimed split into 2 sheets of 16384
and 3616 columns — there is no column-ceiling logic at all. -/
theorem C4_counterexample :
    cols20k.length = 20000
    ∧ (stream_xlsx_to_path [] (some cols20k)).length = 1
    ∧ ¬ (stream_xlsx_to_path [] (some cols20k)).length = 2 := by
  refine ⟨by simp [cols20k], xlsx_sheet_count [] (some cols20k), ?_⟩
  rw [xlsx_sheet_count]
  decide

/-- C4 amended: when exporting to the row-oriented spreadsheet format the
writer always produces exactly one sheet, whatever the column count; the
whole column list, in original order, is the first row of that single
sheet.  No splitting at a 16384-column ceiling exists. -/
theorem C4_single_sheet_amended (records : List Flat) (h : List String) (hne : h ≠ []) :
    (stream_xlsx_to_path records (some h)).length = 1
    ∧ ∃ dataRows, stream_xlsx_to_path records (some h) = [(h.map some) :: dataRows] := by
  exact ⟨xlsx_sheet_count records (some h),
    (match records.head? with
      | some r => if rowHasData h r then [projRow h r] else []
      | none => []) ++ (records.filter (rowHasData h)).map (projRow h),
    stream_xlsx_explicit records h hne⟩

/-- Witness for C4 amended at a one-column, one-record input. -/
theorem C4_witness :
    (stream_xlsx_to_path [[("c1", some "v")]] (some ["c1"])).length = 1
    ∧ ∃ dataRows,
        stream_xlsx_to_path [[("c1", some "v")]] (some ["c1"]) = [(["c1"].map some) :: dataRows] :=
  C4_single_sheet_amended [[("c1", some "v")]] ["c1"] (by decide)

/-- C6 counterexample: the record `{"a": ""}` has all selected values
null/empty, yet the columnar (parquet) writer writes a row for it — the
parquet path has no row filter. -/
theorem C6_counterexample :
    rowHasData ["a"] [("a", some "")] = false
    ∧ stream_parquet_to_path [[("a", some "")]] (some ["a"]) = [[some ""]]
    ∧ stream_parquet_to_path [[("a", some "")]] (some ["a"]) ≠ [] := by
  refine ⟨rfl, rfl, ?_⟩
  decide

/-- C6 amended: for the delimited-text and spreadsheet writers, a record
whose values at the selected columns are all null/empty is skipped
entirely, and exactly the records with at least one non-empty selected
value are written (the spreadsheet writer writes the first such record one
extra time, from its peek-then-reiterate pattern); the columnar writer
writes every record, including all-empty ones. -/
theorem C6_row_filter_amended (records : List Flat) (h : List String) (hne : h ≠ []) :
    stream_csv_to_path records (some h)
        = (h.map some) :: (records.filter (rowHasData h)).map (projRow h)
    ∧ stream_parquet_to_path records (some h) = records.map (projRow h)
    ∧ stream_xlsx_to_path records (some h)
        = [(h.map some) ::
            ((match records.head? with
              | some r => if rowHasData h r then [projRow h r] else []
              | none => []) ++ (records.filter (rowHasData h)).map (projRow h))] :=
  ⟨stream_csv_explicit records h hne, stream_parquet_explicit records h hne,
    stream_xlsx_explicit records h hne⟩

/-- Witness for C6 amended: with header `["a"]`, the record with value
`"1"` is written and the all-empty record is skipped by the CSV writer. -/
theorem C6_witness :
    stream_csv_to_path [[("a", some "1")], [("a", some "")]] (some ["a"])
      = ((["a"].map some) ::
          (([[("a", some "1")], [("a", some "")]].filter (rowHasData ["a"])).map (projRow ["a"]))) :=
  (C6_row_filter_amended [[("a", some "1")], [("a", some "")]] ["a"] (by decide)).1

/-- C7 counterexample: on
`<r><a><v>1</v></a><a><v>2</v></a><b><a><v>3</v></a></b></r>` every
detected row on both paths has the key set `{"v"}`, yet the streaming
path yields 3 records (its target tag `a` matches the nested `a` under
`b` as well) while the whole-document path has 2 rows — the row values
are not identical. -/
theorem C7_counterexample :
    (∀ r ∈ docFlats docC7, r.map Prod.fst = ["v"])
    ∧ (∀ r ∈ iter_xml_rows docC7, r.map Prod.fst = ["v"])
    ∧ (iter_xml_rows docC7).length = 3
    ∧ (xml_rows_to_dataframe docC7).rows.length = 2
    ∧ (3 : Nat) ≠ 2 := by
  refine ⟨by decide, by decide, rfl, rfl, by decide⟩

/-- C7 amended: for every document in which all detected rows share the
same key set AND the streaming extraction yields exactly the
whole-document row records, the whole-document column schema equals the
streaming header (the first record's keys) and the whole-document table
rows are exactly the streaming records projected onto that header, in the
same order. -/
theorem C7_refinement_amended (root : XmlE) (f0 : Flat) (rest : List Flat)
    (hflats : docFlats root = f0 :: rest)
    (hsame : ∀ r ∈ docFlats root,
      (∀ k ∈ r.map Prod.fst, k ∈ f0.map Prod.fst)
        ∧ (∀ k ∈ f0.map Prod.fst, k ∈ r.map Prod.fst))
    (hstream : iter_xml_rows root = docFlats root) :
    (xml_rows_to_dataframe root).columns = f0.map Prod.fst
    ∧ (xml_rows_to_dataframe root).rows
        = (iter_xml_rows root).map (fun r => (f0.map Prod.fst).map (flatGet r)) := by
  have hf0 : (f0.map Prod.fst).Nodup := by
    have hmem : f0 ∈ docFlats root := by
      rw [hflats]
      simp
    unfold docFlats at hmem
    obtain ⟨el, _, he⟩ := List.mem_map.1 hmem
    rw [← he]
    exact flatten_keys_nodup _ _
  have hcols : (xml_rows_to_dataframe root).columns = f0.map Prod.fst := by
    have hc : (xml_rows_to_dataframe root).columns = (docFlats root).foldl addCols [] := rfl
    rw [hc, hflats]
    simp only [List.foldl_cons]
    rw [addCols_append f0 [] hf0 (by simp), List.nil_append]
    apply foldl_addCols_const
    intro r hr k hk
    exact (hsame r (by rw [hflats]; simp [hr])).1 k hk
  refine ⟨hcols, ?_⟩
  have hr : (xml_rows_to_dataframe root).rows
      = (docFlats root).map
          (fun r => (xml_rows_to_dataframe root).columns.map (flatGet r)) := rfl
  rw [hr, hstream]
  apply List.map_congr_left
  intro r _
  rw [hcols]

/-- Witness for C7 amended at `<r><a><v>1</v></a><a><v>2</v></a></r>`,
where the streaming path selects exactly the detected sibling group. -/
theorem C7_witness :
    (xml_rows_to_dataframe docC7w).columns = ([("v", some "1")] : Flat).map Prod.fst
    ∧ (xml_rows_to_dataframe docC7w).rows
        = (iter_xml_rows docC7w).map
            (fun r => (([("v", some "1")] : Flat).map Prod.fst).map (flatGet r)) :=
  C7_refinement_amended docC7w [("v", some "1")] [[("v", some "2")]] rfl (by decide) rfl

theorem download_result_of_ne {s : JS} (h : ¬ s.status = "SUCCESS") :
    download_result s = none := by
  simp [download_result, h]

theorem multiGo_fail_shape : ∀ (pre : List (String × FOut)) (total idx : Nat) (cur : JS)
    (fname : String) (bad : FOut) (post : List (String × FOut)),
    (∀ f ∈ pre, f.2 = FOut.ok) → bad ≠ FOut.ok → cur.status = "PROGRESS" →
    ∃ init fail,
      (multiGo total idx cur (pre ++ (fname, bad) :: post)).1 = init ++ [fail]
      ∧ fail.status = "FAILURE" ∧ (∃ m, fail.error = some m)
      ∧ (multiGo total idx cur (pre ++ (fname, bad) :: post)).2 = pre.map Prod.fst
      ∧ ∀ s ∈ (multiGo total idx cur (pre ++ (fname, bad) :: post)).1,
          s.status = "PROGRESS" ∨ s.status = "FAILURE"
  | [], total, idx, cur, fname, bad, post, _, hbad, hcur => by
    rw [List.nil_append]
    cases bad with
    | ok => exact absurd rfl hbad
    | missing =>
      refine ⟨[],
        { cur with
          status := "FAILURE",
          error := some ("Missing uploaded file: temp_uploads/" ++ fname ++ ".xml") },
        rfl, rfl, ⟨_, rfl⟩, rfl, ?_⟩
      intro s hs
      simp only [multiGo, List.mem_singleton] at hs
      rw [hs]
      exact Or.inr rfl
    | convErr msg =>
      refine ⟨[{ cur with
                 current := idx,
                 file := fname,
                 progress := (idx - 1) * 100 / total }],
        { cur with
          current := idx,
          file := fname,
          progress := (idx - 1) * 100 / total,
          status := "FAILURE",
          error := some msg },
        rfl, rfl, ⟨_, rfl⟩, rfl, ?_⟩
      intro s hs
      simp only [multiGo, List.mem_cons, List.mem_singleton, List.not_mem_nil, or_false] at hs
      rcases hs with hs | hs
      · rw [hs]
        exact Or.inl hcur
      · rw [hs]
        exact Or.inr rfl
  | (g, o) :: pre', total, idx, cur, fname, bad, post, hpre, hbad, hcur => by
    have ho : o = FOut.ok := hpre (g, o) (by simp)
    subst ho
    set preS : JS := { cur with
      current := idx,
      file := g,
      progress := (idx - 1) * 100 / total } with hpreS
    set postS : JS := { cur with
      current := idx,
      file := g,
      progress := idx * 100 / total } with hpostS
    have hpost_status : postS.status = "PROGRESS" := hcur
    obtain ⟨init, fail, htr, hst, herr, harts, hall⟩ :=
      multiGo_fail_shape pre' total (idx + 1) postS
        fname bad post (fun f hf => hpre f (by simp [hf])) hbad hpost_status
    have hred : multiGo total idx cur (((g, FOut.ok) :: pre') ++ (fname, bad) :: post)
        = (preS :: postS
            :: (multiGo total (idx + 1) postS (pre' ++ (fname, bad) :: post)).1,
           g :: (multiGo total (idx + 1) postS (pre' ++ (fname, bad) :: post)).2) := rfl
    refine ⟨preS :: postS :: init, fail, ?_, hst, herr, ?_, ?_⟩
    · rw [hred]
      show preS :: postS :: _ = (preS :: postS :: init) ++ [fail]
      rw [htr]
      rfl
    · rw [hred]
      show g :: _ = _
      rw [harts]
      rfl
    · intro s hs
      rw [hred] at hs
      rcases List.mem_cons.1 hs with he | hs3
      · rw [he]
        exact Or.inl hcur
      · rcases List.mem_cons.1 hs3 with he | hs4
        · rw [he]
          exact Or.inl hcur
        · exact hall s hs4

theorem _run_conversion_eq_multi (files : List (String × FOut)) (h2 : 2 ≤ files.length) :
    _run_conversion files
      = (initJS files.length
          :: (multiGo files.length 1 (initJS files.length) files).1,
         (multiGo files.length 1 (initJS files.length) files).2) := by
  match files with
  | [] => simp at h2
  | [f] => simp at h2
  | f1 :: f2 :: rest => rfl

/-- C8: when any file of a job fails with an unrecoverable error (missing
input or a conversion/parse/write failure), the remaining files are not
processed (only the artifacts of the files before the failing one exist),
the job terminates in the FAILURE state carrying a message, and no state
ever published by the job exposes an artifact through the download
interface. -/
theorem C8_failure_aborts (pre post : List (String × FOut)) (fname : String) (bad : FOut)
    (hbad : bad ≠ FOut.ok) (hpre : ∀ f ∈ pre, f.2 = FOut.ok) :
    (((_run_conversion (pre ++ (fname, bad) :: post)).1.getLast?).map JS.status
        = some "FAILURE")
    ∧ (∃ m, ((_run_conversion (pre ++ (fname, bad) :: post)).1.getLast?).map JS.error
        = some (some m))
    ∧ (_run_conversion (pre ++ (fname, bad) :: post)).2 = pre.map Prod.fst
    ∧ ∀ s ∈ (_run_conversion (pre ++ (fname, bad) :: post)).1, download_result s = none := by
  by_cases hsingle : pre = [] ∧ post = []
  · obtain ⟨rfl, rfl⟩ := hsingle
    cases bad with
    | ok => exact absurd rfl hbad
    | missing =>
      refine ⟨rfl, ⟨_, rfl⟩, rfl, ?_⟩
      intro s hs
      simp only [List.nil_append, _run_conversion, singleGo, List.mem_cons,
        List.mem_singleton, List.not_mem_nil, or_false] at hs
      rcases hs with hs | hs
      · rw [hs]
        exact download_result_of_ne (show ¬ ("PROGRESS" : String) = "SUCCESS" by decide)
      · rw [hs]
        exact download_result_of_ne (show ¬ ("FAILURE" : String) = "SUCCESS" by decide)
    | convErr msg =>
      refine ⟨rfl, ⟨_, rfl⟩, rfl, ?_⟩
      intro s hs
      simp only [List.nil_append, _run_conversion, singleGo, List.mem_cons,
        List.mem_singleton, List.not_mem_nil, or_false] at hs
      rcases hs with hs | hs | hs
      · rw [hs]
        exact download_result_of_ne (show ¬ ("PROGRESS" : String) = "SUCCESS" by decide)
      · rw [hs]
        exact download_result_of_ne (show ¬ ("PROGRESS" : String) = "SUCCESS" by decide)
      · rw [hs]
        exact download_result_of_ne (show ¬ ("FAILURE" : String) = "SUCCESS" by decide)
  · have h2 : 2 ≤ (pre ++ (fname, bad) :: post).length := by
      rcases not_and_or.1 hsingle with h | h
      · have h1 : 1 ≤ pre.length := by
          cases pre with
          | nil => exact absurd rfl h
          | cons a l => simp
        simp only [List.length_append, List.length_cons]
        omega
      · have h1 : 1 ≤ post.length := by
          cases post with
          | nil => exact absurd rfl h
          | cons a l => simp
        simp only [List.length_append, List.length_cons]
        omega
    rw [_run_conversion_eq_multi _ h2]
    obtain ⟨init, fail, htr, hst, herr, harts, hall⟩ :=
      multiGo_fail_shape pre (pre ++ (fname, bad) :: post).length 1
        (initJS (pre ++ (fname, bad) :: post).length) fname bad post hpre hbad rfl
    refine ⟨?_, ?_, harts, ?_⟩
    · show ((initJS (pre ++ (fname, bad) :: post).length
          :: (multiGo (pre ++ (fname, bad) :: post).length 1
              (initJS (pre ++ (fname, bad) :: post).length)
              (pre ++ (fname, bad) :: post)).1).getLast?).map JS.status = some "FAILURE"
      rw [htr,
        show (initJS (pre ++ (fname, bad) :: post).length :: (init ++ [fail]))
          = (initJS (pre ++ (fname, bad) :: post).length :: init) ++ [fail] from rfl,
        List.getLast?_concat]
      simp [hst]
    · obtain ⟨m, hm⟩ := herr
      refine ⟨m, ?_⟩
      show ((initJS (pre ++ (fname, bad) :: post).length
          :: (multiGo (pre ++ (fname, bad) :: post).length 1
              (initJS (pre ++ (fname, bad) :: post).length)
              (pre ++ (fname, bad) :: post)).1).getLast?).map JS.error = some (some m)
      rw [htr,
        show (initJS (pre ++ (fname, bad) :: post).length :: (init ++ [fail]))
          = (initJS (pre ++ (fname, bad) :: post).length :: init) ++ [fail] from rfl,
        List.getLast?_concat]
      simp [hm]
    · intro s hs
      rcases List.mem_cons.1 hs with he | hs2
      · rw [he]
        exact download_result_of_ne (show ¬ ("PROGRESS" : String) = "SUCCESS" by decide)
      · rcases hall s hs2 with h | h
        · exact download_result_of_ne (by rw [h]; decide)
        · exact download_result_of_ne (by rw [h]; decide)

/-- Witness for C8: a three-file job whose second file has a conversion
error ends FAILURE with that message, produced only the first file's
artifact, and exposes nothing for download. -/
theorem C8_witness :
    (((_run_conversion ([("f1", FOut.ok)] ++ ("f2", FOut.convErr "bad xml") :: [("f3", FOut.ok)])).1.getLast?).map JS.status
        = some "FAILURE")
    ∧ (∃ m, ((_run_conversion ([("f1", FOut.ok)] ++ ("f2", FOut.convErr "bad xml") :: [("f3", FOut.ok)])).1.getLast?).map JS.error
        = some (some m))
    ∧ (_run_conversion ([("f1", FOut.ok)] ++ ("f2", FOut.convErr "bad xml") :: [("f3", FOut.ok)])).2
        = ([("f1", FOut.ok)] : List (String × FOut)).map Prod.fst
    ∧ ∀ s ∈ (_run_conversion ([("f1", FOut.ok)] ++ ("f2", FOut.convErr "bad xml") :: [("f3", FOut.ok)])).1,
        download_result s = none :=
  C8_failure_aborts [("f1", FOut.ok)] [("f3", FOut.ok)] "f2" (FOut.convErr "bad xml")
    (by intro h; exact FOut.noConfusion h) (by intro f hf; simp at hf; rw [hf])

theorem multiGo_chain : ∀ (files : List (String × FOut)) (total idx : Nat) (cur : JS),
    cur.current ≤ idx →
    List.Chain' (fun a b : JS => a.current ≤ b.current) (cur :: (multiGo total idx cur files).1)
  | [], total, idx, cur, _ =>
    List.chain'_cons.2 ⟨le_refl _, List.chain'_singleton _⟩
  | (fname, out) :: rest, total, idx, cur, hle => by
    cases out with
    | missing =>
      exact List.chain'_cons.2 ⟨le_refl _, List.chain'_singleton _⟩
    | convErr msg =>
      exact List.chain'_cons.2 ⟨hle, List.chain'_cons.2 ⟨le_refl _, List.chain'_singleton _⟩⟩
    | ok =>
      have ih := multiGo_chain rest total (idx + 1)
        { cur with
          current := idx,
          file := fname,
          progress := idx * 100 / total } (Nat.le_succ idx)
      exact List.chain'_cons.2 ⟨hle, List.chain'_cons.2 ⟨le_refl _, ih⟩⟩

theorem multiGo_progress : ∀ (files : List (String × FOut)) (total idx : Nat) (cur : JS),
    ∀ s ∈ (multiGo total idx cur files).1, s.status = "PROGRESS" →
      s.progress = (s.current - 1) * 100 / total ∨ s.progress = s.current * 100 / total
  | [], total, idx, cur => by
    intro s hs hstatus
    simp only [multiGo, List.mem_singleton] at hs
    rw [hs] at hstatus
    exact absurd hstatus (show ¬ ("SUCCESS" : String) = "PROGRESS" by decide)
  | (fname, out) :: rest, total, idx, cur => by
    intro s hs hstatus
    cases out with
    | missing =>
      simp only [multiGo, List.mem_singleton] at hs
      rw [hs] at hstatus
      exact absurd hstatus (show ¬ ("FAILURE" : String) = "PROGRESS" by decide)
    | convErr msg =>
      simp only [multiGo, List.mem_cons, List.mem_singleton, List.not_mem_nil, or_false] at hs
      rcases hs with hs | hs
      · rw [hs]
        exact Or.inl rfl
      · rw [hs] at hstatus
        exact absurd hstatus (show ¬ ("FAILURE" : String) = "PROGRESS" by decide)
    | ok =>
      have hs2 : s ∈ ({ cur with
            current := idx,
            file := fname,
            progress := (idx - 1) * 100 / total } : JS)
          :: ({ cur with
                current := idx,
                file := fname,
                progress := idx * 100 / total } : JS)
          :: (multiGo total (idx + 1)
              { cur with
                current := idx,
                file := fname,
                progress := idx * 100 / total } rest).1 := hs
      rcases List.mem_cons.1 hs2 with he | hs3
      · rw [he]
        exact Or.inl rfl
      · rcases List.mem_cons.1 hs3 with he | hs4
        · rw [he]
          exact Or.inr rfl
        · exact multiGo_progress rest total (idx + 1) _ s hs4 hstatus

theorem multiGo_success : ∀ (files : List (String × FOut)) (total idx : Nat) (cur : JS),
    (∀ f ∈ files, f.2 = FOut.ok) →
    ∃ init succ, (multiGo total idx cur files).1 = init ++ [succ] ∧ succ.status = "SUCCESS"
  | [], total, idx, cur, _ =>
    ⟨[], { cur with status := "SUCCESS", result_path := some "outputs/job.zip" }, rfl, rfl⟩
  | (g, o) :: rest, total, idx, cur, hok => by
    have ho : o = FOut.ok := hok (g, o) (by simp)
    subst ho
    obtain ⟨init, succ, htr, hst⟩ := multiGo_success rest total (idx + 1)
      { cur with
        current := idx,
        file := g,
        progress := idx * 100 / total } (fun f hf => hok f (by simp [hf]))
    refine ⟨({ cur with
          current := idx,
          file := g,
          progress := (idx - 1) * 100 / total } : JS)
        :: ({ cur with
              current := idx,
              file := g,
              progress := idx * 100 / total } : JS) :: init, succ, ?_, hst⟩
    show ({ cur with
          current := idx,
          file := g,
          progress := (idx - 1) * 100 / total } : JS)
        :: ({ cur with
              current := idx,
              file := g,
              progress := idx * 100 / total } : JS)
        :: (multiGo total (idx + 1)
            { cur with
              current := idx,
              file := g,
              progress := idx * 100 / total } rest).1 = _
    rw [htr]
    rfl

/-- C9 counterexample: in a 3-file job, the state published before
processing the first file has `current = 1` and `progress = 0`, while
`floor(current/total*100) = floor(1/3*100) = 33`, refuting the claim that
the reported percent always equals `floor(current/total*100)`. -/
theorem C9_counterexample :
    (_run_conversion [("f1", FOut.ok), ("f2", FOut.ok), ("f3", FOut.ok)]).1[1]?
      = some ⟨"PROGRESS", 0, 1, 3, "f1", none, none⟩
    ∧ (1 * 100 / 3 : Nat) = 33
    ∧ (0 : Nat) ≠ 33 :=
  ⟨rfl, rfl, by decide⟩

/-- C9 amended: for every job, the published `current` never decreases
across the sequence of published states — it is updated both before and
after each file is processed — and every published PROGRESS state's
percent equals `floor((current-1)/total*100)` (the update before
processing a file) or `floor(current/total*100)` (the update after); a job
whose files all convert successfully ends at the SUCCESS state. -/
theorem C9_progress_amended (files : List (String × FOut)) :
    List.Pairwise (fun a b : JS => a.current ≤ b.current) (_run_conversion files).1
    ∧ (∀ s ∈ (_run_conversion files).1, s.status = "PROGRESS" →
        s.progress = (s.current - 1) * 100 / files.length
        ∨ s.progress = s.current * 100 / files.length)
    ∧ ((∀ f ∈ files, f.2 = FOut.ok) → files ≠ [] →
        ((_run_conversion files).1.getLast?).map JS.status = some "SUCCESS") := by
  haveI htrans : IsTrans JS (fun a b : JS => a.current ≤ b.current) :=
    ⟨fun _ _ _ hab hbc => le_trans hab hbc⟩
  match files with
  | [] =>
    refine ⟨?_, ?_, ?_⟩
    · refine List.Pairwise.cons ?_ (List.pairwise_singleton _ _)
      intro b hb
      simp only [_run_conversion, List.mem_singleton] at hb
      rw [hb]
    · intro s hs hstatus
      simp only [_run_conversion, List.mem_cons, List.mem_singleton, List.not_mem_nil,
        or_false] at hs
      rcases hs with hs | hs
      · rw [hs]
        exact Or.inr (by simp [initJS])
      · rw [hs] at hstatus
        exact absurd hstatus (show ¬ ("FAILURE" : String) = "PROGRESS" by decide)
    · intro _ hne
      exact absurd rfl hne
  | [(fname, out)] =>
    cases out with
    | ok =>
      refine ⟨?_, ?_, ?_⟩
      · refine List.Pairwise.cons ?_ (List.Pairwise.cons ?_ (List.pairwise_singleton _ _))
        · intro b hb
          simp only [_run_conversion, singleGo, List.mem_cons, List.mem_singleton,
            List.not_mem_nil, or_false] at hb
          rcases hb with hb | hb <;> rw [hb] <;> exact Nat.zero_le _
        · intro b hb
          simp only [List.mem_singleton] at hb
          rw [hb]
      · intro s hs hstatus
        simp only [_run_conversion, singleGo, List.mem_cons, List.mem_singleton,
          List.not_mem_nil, or_false] at hs
        rcases hs with hs | hs | hs
        · rw [hs]
          exact Or.inr (by simp [initJS])
        · rw [hs]
          exact Or.inl (by simp [initJS])
        · rw [hs] at hstatus
          exact absurd hstatus (show ¬ ("SUCCESS" : String) = "PROGRESS" by decide)
      · intro _ _
        rfl
    | missing =>
      refine ⟨?_, ?_, ?_⟩
      · refine List.Pairwise.cons ?_ (List.pairwise_singleton _ _)
        intro b hb
        simp only [_run_conversion, singleGo, List.mem_singleton] at hb
        rw [hb]
      · intro s hs hstatus
        simp only [_run_conversion, singleGo, List.mem_cons, List.mem_singleton,
          List.not_mem_nil, or_false] at hs
        rcases hs with hs | hs
        · rw [hs]
          exact Or.inr (by simp [initJS])
        · rw [hs] at hstatus
          exact absurd hstatus (show ¬ ("FAILURE" : String) = "PROGRESS" by decide)
      · intro hok _
        have := hok (fname, FOut.missing) (by simp)
        exact absurd this (by intro h; exact FOut.noConfusion h)
    | convErr msg =>
      refine ⟨?_, ?_, ?_⟩
      · refine List.Pairwise.cons ?_ (List.Pairwise.cons ?_ (List.pairwise_singleton _ _))
        · intro b hb
          simp only [_run_conversion, singleGo, List.mem_cons, List.mem_singleton,
            List.not_mem_nil, or_false] at hb
          rcases hb with hb | hb <;> rw [hb] <;> exact Nat.zero_le _
        · intro b hb
          simp only [List.mem_singleton] at hb
          rw [hb]
      · intro s hs hstatus
        simp only [_run_conversion, singleGo, List.mem_cons, List.mem_singleton,
          List.not_mem_nil, or_false] at hs
        rcases hs with hs | hs | hs
        · rw [hs]
          exact Or.inr (by simp [initJS])
        · rw [hs]
          exact Or.inl (by simp [initJS])
        · rw [hs] at hstatus
          exact absurd hstatus (show ¬ ("FAILURE" : String) = "PROGRESS" by decide)
      · intro hok _
        have := hok (fname, FOut.convErr msg) (by simp)
        exact absurd this (by intro h; exact FOut.noConfusion h)
  | f1 :: f2 :: rest =>
    have h2 : 2 ≤ (f1 :: f2 :: rest).length := by simp
    rw [_run_conversion_eq_multi _ h2]
    refine ⟨?_, ?_, ?_⟩
    · have hch := multiGo_chain (f1 :: f2 :: rest) (f1 :: f2 :: rest).length 1
        (initJS (f1 :: f2 :: rest).length) (Nat.zero_le 1)
      rw [List.chain'_iff_pairwise] at hch
      exact hch
    · intro s hs hstatus
      rcases List.mem_cons.1 hs with he | hs2
      · rw [he]
        exact Or.inr (by simp [initJS])
      · exact multiGo_progress (f1 :: f2 :: rest) (f1 :: f2 :: rest).length 1
          (initJS (f1 :: f2 :: rest).length) s hs2 hstatus
    · intro hok _
      obtain ⟨init, succ, htr, hst⟩ := multiGo_success (f1 :: f2 :: rest)
        (f1 :: f2 :: rest).length 1 (initJS (f1 :: f2 :: rest).length) hok
      rw [htr,
        show (initJS (f1 :: f2 :: rest).length :: (init ++ [succ]))
          = (initJS (f1 :: f2 :: rest).length :: init) ++ [succ] from rfl,
        List.getLast?_concat]
      simp [hst]

/-- Witness for C9: a 3-file all-successful job's published states end at
SUCCESS. -/
theorem C9_witness :
    ((_run_conversion [("a", FOut.ok), ("b", FOut.ok), ("c", FOut.ok)]).1.getLast?).map JS.status
      = some "SUCCESS" :=
  (C9_progress_amended [("a", FOut.ok), ("b", FOut.ok), ("c", FOut.ok)]).2.2
    (by
      intro f hf
      simp only [List.mem_cons, List.mem_singleton, List.not_mem_nil, or_false] at hf
      rcases hf with h | h | h <;> rw [h])
    (by simp)
